import Mathlib

/-!
Verification of the HealChain cryptographic aggregation core.

This file gives a shallow embedding, in Lean 4, of the functions of
`src/crypto/ndd_fe.py` (NDD-FE key derivation, encryption, cached BSGS
discrete-log search, aggregate decryption and its chunked wrapper) and of
`src/crypto/dgc.py` (gradient compression/quantization and the Merkle-leaf
byte codec), together with theorems settling the specification claims.

Modelling conventions:

* The group of points of secp256r1 is cyclic of prime order `N` with
  cofactor 1, so every point is a scalar multiple of the generator `G`.
  We model the point `s * G` by the scalar `s : ZMod N`; point addition is
  addition in `ZMod N`, scalar multiplication by `k` is multiplication by
  `(k : ZMod N)`, the point at infinity (tinyec's `None` / missing-coordinate
  states, which the source treats interchangeably) is `0`, and `G` itself
  is `1`.  Point equality is equality in `ZMod N`, faithfully reflecting
  coordinate equality of curve points.
* The affine coordinates `(x, y)` of a point are not expressible inside this
  group model, so they enter as a parameter `coordsOf : Point → ℕ × ℕ`
  (giving the coordinate pair of a non-infinity point).  Theorems that need
  the curve fact that `(x, y mod 2)` determines a point (used by the BSGS
  baby-step table keys) take that collision-freeness as an explicit
  hypothesis; theorems that do not need it hold for every `coordsOf`.
* `hashlib.sha256` is external library code; it enters as a parameter
  `Hash : List ℕ → ℕ` mapping a byte string to its digest interpreted as a
  big-endian natural number, exactly how the source consumes it
  (`int.from_bytes(hashlib.sha256(payload).digest(), "big")`).
* Python integers are `ℤ`/`ℕ` (Python `%` on a positive modulus is
  Euclidean, i.e. `Int.emod`); byte strings are `List ℕ`; Python floats
  are modelled as exact rationals `ℚ`, with Python's `round` /
  `numpy.rint` (round half to even) modelled exactly by `pyRound`.
* Python `raise` is modelled by `Except.error`; functions that can raise
  return `Except String _` or `Option _`.
-/

/-- Order of the secp256r1 (P-256) base-point group: a 256-bit prime. -/
def N : ℕ := 115792089210356248762697446949407573529996955224135760342422259061068512044369

instance : NeZero N := ⟨by decide⟩

instance : Fact (1 < N) := ⟨by decide⟩

/-- Model of a curve point: the scalar `s` stands for the point `s * G`. -/
abbrev Point := ZMod N

/-- The generator `G` is `1 * G`. -/
def G : Point := 1

/-- Big-endian fixed-width byte encoding, `x.to_bytes(length, "big")`. -/
def int_to_bytes (x : ℕ) (length : ℕ) : List ℕ :=
  (List.range length).map (fun i => x / 256 ^ (length - 1 - i) % 256)

/-- Python's `round` (and `numpy.rint`): round half to even, on exact
rationals.  Python floats are rationals and CPython rounds them exactly
this way. -/
def pyRound (q : ℚ) : ℤ :=
  if q - (⌊q⌋ : ℚ) < 1/2 then ⌊q⌋
  else if (1/2 : ℚ) < q - (⌊q⌋ : ℚ) then ⌊q⌋ + 1
  else if Even ⌊q⌋ then ⌊q⌋ else ⌊q⌋ + 1

section CurveModel

variable (coordsOf : Point → ℕ × ℕ)
variable (Hash : List ℕ → ℕ)

/-- `point_to_bytes` of `ndd_fe.py`: `x ‖ y` as two 32-byte big-endian
strings, the point at infinity as 64 zero bytes. -/
def point_to_bytes (pt : Point) : List ℕ :=
  if pt = 0 then List.replicate 64 0
  else int_to_bytes (coordsOf pt).1 32 ++ int_to_bytes (coordsOf pt).2 32

/-- `derive_ri_from_shared` of `ndd_fe.py`. -/
def derive_ri_from_shared (shared_point : Point) (ctr : ℕ) (task_id : List ℕ) : ℕ :=
  Hash (point_to_bytes coordsOf shared_point
      ++ int_to_bytes ctr 8
      ++ int_to_bytes task_id.length 2
      ++ task_id) % N

/-- `safe_scalar_mul` of `ndd_fe.py`: scalar multiplication returning the
identity when the input point is the identity (in the group model the
branch is redundant, since `0 * k = 0`, but we keep the source's shape). -/
def safe_scalar_mul (point : Point) (scalar : Point) : Point :=
  if point = 0 then 0 else point * scalar

/-- `key_derive` of `ndd_fe.py`: `sk_FE = Σ (r_i * w_i) mod N`, accumulated
left to right with a reduction at every step, over `zip(pk_miners, weights_y)`. -/
def key_derive (sk_TP : ℕ) (pk_miners : List Point) (weights_y : List ℚ)
    (ctr : ℕ) (task_id : List ℕ) (scale_weights : ℤ) : ℕ :=
  (pk_miners.zip weights_y).foldl
    (fun sk_FE pw =>
      let shared := pw.1 * (sk_TP : Point)
      let r_i := derive_ri_from_shared coordsOf Hash shared ctr task_id
      let w_scaled := ((pyRound (pw.2 * (scale_weights : ℚ))) % (N : ℤ)).toNat
      (sk_FE + r_i * w_scaled) % N)
    0

/-- `encrypt_integer_vector` of `ndd_fe.py`: one ciphertext point
`mask + (x mod N) * pk_A` per vector element. -/
def encrypt_integer_vector (sk_miner : ℕ) (pk_TP pk_A : Point)
    (int_delta : List ℤ) (ctr : ℕ) (task_id : List ℕ) : List Point :=
  let shared := pk_TP * (sk_miner : Point)
  let r_i := derive_ri_from_shared coordsOf Hash shared ctr task_id
  let mask := pk_TP * (r_i : Point)
  int_delta.map (fun x => mask + ((x % (N : ℤ) : ℤ) : Point) * pk_A)

end CurveModel

section BSGS

variable (coordsOf : Point → ℕ × ℕ)

/-- The exact ceiling square root, modelling the source's
`int(math.ceil(math.sqrt(bound)))`.  IEEE-754 `sqrt` is correctly rounded,
so the float computation agrees with the exact ceiling for every
`bound ≤ 2 ^ 52`; beyond that it can fall below it (already at
`bound = 2 ^ 52 + 1` the program computes `m = 2 ^ 26` while the exact
ceiling is `2 ^ 26 + 1`, losing the candidates in `[m², bound)`).  Every
theorem in this file that asserts a *successful* BSGS search therefore
hypothesizes `bound ≤ 2 ^ 52`, the range on which this definition is the
program's. -/
def ceil_sqrt (bound : ℕ) : ℕ :=
  if Nat.sqrt bound * Nat.sqrt bound = bound then Nat.sqrt bound else Nat.sqrt bound + 1

/-- `_point_key` of `ndd_fe.py`: `(None, None)` for the identity, else
`(int(pt.x), int(pt.y) & 1)`. -/
def _point_key (pt : Point) : Option (ℕ × ℕ) :=
  if pt = 0 then none else some ((coordsOf pt).1, (coordsOf pt).2 % 2)

/-- The baby-step dictionary built by `_precompute_babysteps`: the key
`(None, None)` maps to `0`, then `key(j * G) ↦ j` is inserted for
`j = 1, …, m-1`, later insertions overwriting earlier ones (Python dict
semantics).  The process-global `_BABY_CACHE` memoization is semantically
transparent (the table is a deterministic function of `m`), so it is not
modelled. -/
def babyTable (m : ℕ) : Option (ℕ × ℕ) → Option ℕ :=
  (List.range' 1 (m - 1)).foldl
    (fun tbl (j : ℕ) => fun key => if key = _point_key coordsOf (j : Point) then some j else tbl key)
    (fun key => if key = none then some 0 else none)

/-- The giant-step loop of `bsgs_cached`, with `fuel` remaining iterations:
look the key of `current` up in the baby table; on a hit `j` accept the
candidate `i * m + j` only if it is below the bound and verifies
(`candidate * G == pt`), else keep stepping by `neg_mG`. -/
def bsgsGo (baby : Option (ℕ × ℕ) → Option ℕ) (pt neg_mG : Point) (m bound : ℕ) :
    ℕ → ℕ → Point → ℤ
  | 0, _, _ => -1
  | fuel + 1, i, current =>
    match baby (_point_key coordsOf current) with
    | some j =>
      let candidate := i * m + j
      if candidate < bound ∧ (candidate : Point) = pt then (candidate : ℤ)
      else bsgsGo baby pt neg_mG m bound fuel (i + 1) (current + neg_mG)
    | none => bsgsGo baby pt neg_mG m bound fuel (i + 1) (current + neg_mG)

/-- `bsgs_cached` of `ndd_fe.py`: return `x` in `[0, bound)` with
`x * G == pt`, or `-1`; the identity is the trivial solution `0`. -/
def bsgs_cached (pt : Point) (bound : ℕ) : ℤ :=
  if pt = 0 then 0
  else
    let m := ceil_sqrt bound
    let neg_mG : Point := (((-(m : ℤ)) % (N : ℤ) : ℤ) : Point)
    bsgsGo coordsOf (babyTable coordsOf m) pt neg_mG m bound m 0 pt

end BSGS

section Decrypt

variable (coordsOf : Point → ℕ × ℕ)

/-- Reduction of a valid `Except` computation over a list, modelling a
Python loop that may `raise`: stops at the first error. -/
def exceptMapList {α β : Type} (f : α → Except String β) : List α → Except String (List β)
  | [] => Except.ok []
  | a :: l =>
    match f a with
    | Except.error e => Except.error e
    | Except.ok b =>
      match exceptMapList f l with
      | Except.error e => Except.error e
      | Except.ok bs => Except.ok (b :: bs)

/-- `weight_scaled_raw` of `decrypt_aggregate`: signed scaled weights. -/
def weightScaledRaw (weights_y : List ℚ) (scale_weights : ℤ) : List ℤ :=
  weights_y.map (fun w => pyRound (w * (scale_weights : ℚ)))

/-- `weight_scaled_mod` of `decrypt_aggregate`: the same weights reduced
mod `N` (Python `%` on ints, hence non-negative). -/
def weightScaledMod (weights_y : List ℚ) (scale_weights : ℤ) : List ℕ :=
  (weightScaledRaw weights_y scale_weights).map (fun ws => (ws % (N : ℤ)).toNat)

/-- The per-index aggregate `agg = Σ_i (U_ik * w_mod_i)` of
`decrypt_aggregate` (the source's `None`-tracking fold is the group sum,
`None` being the identity). -/
def aggAt (ciphertexts_U : List (List Point)) (wmod : List ℕ) (k : ℕ) : Point :=
  (ciphertexts_U.zip wmod).foldl
    (fun agg p => agg + safe_scalar_mul (p.1.getD k 0) (p.2 : Point)) 0

/-- The scalar `(-1) % N` used by the source to negate points. -/
def negOneScalar : Point := (((-1 : ℤ) % (N : ℤ) : ℤ) : Point)

/-- Whether the aggregation loop of `decrypt_aggregate` ends with
`agg = None`: `safe_scalar_mul(U_ik, w)` returns `None` exactly when the
ciphertext point `U_ik` is the identity (for a non-identity point and a
zero scalar tinyec yields an `Inf` *object*, which is not `None` and acts
as the additive identity), so `agg` stays `None` precisely when every
ciphertext point at index `k` over `zip(ciphertexts_U, weights)` is the
identity. -/
def aggIsNone (ciphertexts_U : List (List Point)) (wmod : List ℕ) (k : ℕ) : Bool :=
  (ciphertexts_U.zip wmod).all (fun p => decide (p.1.getD k 0 = 0))

/-- The unmasked, unblinded point `E*_k` of `decrypt_aggregate`.  When the
aggregate is `None` (every weighted ciphertext the identity) the source
sets `E = None` *without* stripping the functional mask and
`bsgs_cached(None, ·)` then recovers `0`; that branch is the `0` case
here.  Otherwise: strip the functional mask `pk_TP * sk_FE`
(the source's `global_mask is None` / `neg_global is None` sub-branches
coincide with total group arithmetic, since adding the identity is the
identity map), then multiply by `pow(sk_A, -1, N)` (the source raises
there unless `sk_A` is invertible mod `N`; `ZMod N` supplies the same
inverse). -/
def EStarAt (sk_FE sk_A : ℕ) (pk_TP : Point) (ciphertexts_U : List (List Point))
    (weights_y : List ℚ) (scale_weights : ℤ) (k : ℕ) : Point :=
  if aggIsNone ciphertexts_U (weightScaledMod weights_y scale_weights) k then 0
  else
    let global_mask := safe_scalar_mul pk_TP (sk_FE : Point)
    let agg := aggAt ciphertexts_U (weightScaledMod weights_y scale_weights) k
    let neg_global := safe_scalar_mul global_mask negOneScalar
    let E := agg + neg_global
    safe_scalar_mul E ((sk_A : Point))⁻¹

/-- `S_mod` of the consistency check: `Σ w_mod * (upd[k] % N) mod N`,
accumulated with a reduction at every step. -/
def SModAt (wmod : List ℕ) (miner_int_updates : List (List ℤ)) (k : ℕ) : ℕ :=
  (wmod.zip miner_int_updates).foldl
    (fun S p => (S + p.1 * ((p.2.getD k 0) % (N : ℤ)).toNat) % N) 0

/-- `S_signed` of the dynamic-bound computation: the exact signed integer
`Σ w_raw * upd[k]`. -/
def SSignedAt (wraw : List ℤ) (miner_int_updates : List (List ℤ)) (k : ℕ) : ℤ :=
  (wraw.zip miner_int_updates).foldl (fun S p => S + p.1 * p.2.getD k 0) 0

/-- Whether every miner row zipped with the weights has an entry at index
`k`; when it does not, Python raises `IndexError` inside the
`try`/`except` blocks of `decrypt_aggregate`, which silently falls back. -/
def updatesCover (len : ℕ) (miner_int_updates : List (List ℤ)) (k : ℕ) : Bool :=
  ((List.range len).zip miner_int_updates).all (fun p => k < p.2.length)

/-- The BSGS bound actually used at index `k`: the plaintext-derived
dynamic bound `max(1024, |S_signed| + 16)` when miner updates are supplied
and indexable, the caller's `bsgs_bound` otherwise. -/
def dynBoundAt (weights_y : List ℚ) (scale_weights : ℤ) (bsgs_bound : ℕ)
    (miner_int_updates : Option (List (List ℤ))) (k : ℕ) : ℕ :=
  match miner_int_updates with
  | none => bsgs_bound
  | some upds =>
    let wraw := weightScaledRaw weights_y scale_weights
    if updatesCover wraw.length upds k then
      max 1024 ((SSignedAt wraw upds k).natAbs + 16)
    else bsgs_bound

/-- The body of the per-parameter loop of `decrypt_aggregate`: consistency
check (when plaintext updates are supplied), positive BSGS with the
dynamic bound, negated-point fallback, signed canonicalization. -/
def decrypt_param (sk_FE sk_A : ℕ) (pk_TP : Point) (ciphertexts_U : List (List Point))
    (weights_y : List ℚ) (scale_weights : ℤ) (bsgs_bound : ℕ)
    (miner_int_updates : Option (List (List ℤ))) (k : ℕ) : Except String ℤ :=
  let wmod := weightScaledMod weights_y scale_weights
  let E_star := EStarAt sk_FE sk_A pk_TP ciphertexts_U weights_y scale_weights k
  let check : Except String Unit :=
    match miner_int_updates with
    | none => Except.ok ()
    | some upds =>
      if updatesCover wmod.length upds k then
        if E_star = safe_scalar_mul G ((SModAt wmod upds k : ℕ) : Point) then Except.ok ()
        else Except.error ("Encrypted point mismatch for param " ++ toString k ++
          ": check miner ciphertexts / pk_A / pk_TP / sk_FE / scale_weights.")
      else Except.ok ()
  match check with
  | Except.error e => Except.error e
  | Except.ok _ =>
    let dynamic_bound := dynBoundAt weights_y scale_weights bsgs_bound miner_int_updates k
    let val := bsgs_cached coordsOf E_star dynamic_bound
    let signedVal : Except String ℤ :=
      if val < 0 then
        let val2 := bsgs_cached coordsOf (safe_scalar_mul E_star negOneScalar) dynamic_bound
        if 0 ≤ val2 then Except.ok (-val2)
        else Except.error ("BSGS bound insufficient for param " ++ toString k ++
          " (dynamic_bound=" ++ toString dynamic_bound ++ ")")
      else Except.ok val
    match signedVal with
    | Except.error e => Except.error e
    | Except.ok v => Except.ok (if (N : ℤ) / 2 < v then v - N else v)

/-- `decrypt_aggregate` of `ndd_fe.py`.  The recovered `np.int64` vector
is a list of integers: every recovered entry has magnitude below the
search bound, and every theorem asserting success assumes that bound is
at most `2 ^ 52 < 2 ^ 63`, so the machine width never truncates on the
executions the theorems speak about and is not modelled. -/
def decrypt_aggregate (sk_FE sk_A : ℕ) (pk_TP : Point) (ciphertexts_U : List (List Point))
    (weights_y : List ℚ) (scale_weights : ℤ) (bsgs_bound : ℕ)
    (miner_int_updates : Option (List (List ℤ))) : Except String (List ℤ) :=
  let num_params := (ciphertexts_U.headD []).length
  exceptMapList
    (decrypt_param coordsOf sk_FE sk_A pk_TP ciphertexts_U weights_y scale_weights
      bsgs_bound miner_int_updates)
    (List.range num_params)

/-- `compute_chunk_bound_py` of `decrypt_aggregate_chunked`: per-chunk
`(capped bound, max |S|, hit_cap)` using exact integer arithmetic.  The
source indexes each update row as `upd[idx]`, which raises an uncaught
`IndexError` when a row is shorter than the chunk; `getD _ 0` totalizes
that partial read, so theorems about the chunked path restrict to update
rows that cover the parameter vector (C4's row-length hypothesis). -/
def compute_chunk_bound_py (weight_scaled : List ℤ) (miner_int_updates : List (List ℤ))
    (max_chunk_bound_cap : ℕ) (start fin : ℕ) : ℕ × ℕ × Bool :=
  let max_abs_S :=
    ((List.range' start (fin - start)).map
      (fun idx => (SSignedAt weight_scaled miner_int_updates idx).natAbs)).foldl max 0
  let bound := max (max_abs_S + 16) 1024
  (min bound max_chunk_bound_cap, max_abs_S, decide (max_chunk_bound_cap < bound))

/-- `solve_chunk` of `decrypt_aggregate_chunked`: slice the ciphertexts,
fail hard when the required bound exceeds the cap (naming the offending
index range), else decrypt the chunk with the computed bound (and without
plaintext updates).  The diagnostic `print` has no semantic content. -/
def solve_chunk (sk_FE sk_A : ℕ) (pk_TP : Point) (ciphertexts_U : List (List Point))
    (weights_y : List ℚ) (miner_int_updates : List (List ℤ)) (scale_weights : ℤ)
    (max_chunk_bound_cap : ℕ) (start fin : ℕ) : Except String (List ℤ) :=
  let weight_scaled := weightScaledRaw weights_y scale_weights
  let chunk_cts := ciphertexts_U.map (fun miner => (miner.drop start).take (fin - start))
  let r := compute_chunk_bound_py weight_scaled miner_int_updates max_chunk_bound_cap start fin
  if r.2.2 then
    Except.error ("Required BSGS bound " ++ toString (r.2.1 + 16) ++
      " exceeds max_chunk_bound_cap " ++ toString max_chunk_bound_cap ++
      " for chunk [" ++ toString start ++ ":" ++ toString fin ++ "]. " ++
      "Either increase max_chunk_bound_cap, reduce chunk_size, or quantize/clip updates.")
  else
    decrypt_aggregate coordsOf sk_FE sk_A pk_TP chunk_cts weights_y scale_weights r.1 none

/-- The chunk index ranges `[(i, min(L, i + chunk_size)) for i in range(0, L, chunk_size)]`. -/
def chunkRanges (L chunk_size : ℕ) : List (ℕ × ℕ) :=
  (List.range ((L + chunk_size - 1) / chunk_size)).map
    (fun t => (t * chunk_size, min L (t * chunk_size + chunk_size)))

/-- `decrypt_aggregate_chunked` of `ndd_fe.py`, sequential path: solve the
chunks in order and reassemble by position (the `parallel=True` path
computes the same chunks and writes them back at the same offsets). -/
def decrypt_aggregate_chunked (sk_FE sk_A : ℕ) (pk_TP : Point)
    (ciphertexts_U : List (List Point)) (weights_y : List ℚ)
    (miner_int_updates : List (List ℤ)) (scale_weights : ℤ)
    (chunk_size : ℕ) (max_chunk_bound_cap : ℕ) : Except String (List ℤ) :=
  let L := (ciphertexts_U.headD []).length
  match exceptMapList
      (fun c => solve_chunk coordsOf sk_FE sk_A pk_TP ciphertexts_U weights_y
        miner_int_updates scale_weights max_chunk_bound_cap c.1 c.2)
      (chunkRanges L chunk_size) with
  | Except.error e => Except.error e
  | Except.ok vecs => Except.ok vecs.flatten

end Decrypt

section DGC

/-- Dense residual lookup: `res_dense[r_idx] = r_vals` followed by reading
position `i` (with numpy fancy assignment, a later duplicate index wins). -/
def scatterLookup (r_idx : List ℕ) (r_vals : List ℚ) (i : ℕ) : ℚ :=
  (r_idx.zip r_vals).foldl (fun acc p => if p.1 = i then p.2 else acc) 0

/-- The tie-breaking order of `np.lexsort((idxs, -abs_flat[idxs]))`: larger
magnitude first, then lower index. -/
def dgcTieOrder (abs_flat : List ℚ) (a b : ℕ) : Prop :=
  abs_flat.getD b 0 < abs_flat.getD a 0 ∨
    (abs_flat.getD a 0 = abs_flat.getD b 0 ∧ a ≤ b)

instance (abs_flat : List ℚ) : DecidableRel (dgcTieOrder abs_flat) := fun _ _ => by
  unfold dgcTieOrder; infer_instance

/-- `DGC.compress_and_quantize` of `dgc.py`, on exact rationals.  The
compressor state `residual_sparse` is passed in explicitly and the updated
residual is returned next to the `(indices, values_int, scale)` triple
(the original shape metadata carried around by the source is not part of
any claim).  Sorting models `np.sort`/`np.partition`/`np.lexsort`. -/
def compress_and_quantize (tau : ℚ) (max_int : ℕ) (min_nonzeros : ℕ)
    (residual : Option (List ℕ × List ℚ)) (raw_gradient : List ℚ) :
    (List ℕ × List ℤ × ℚ) × (List ℕ × List ℚ) :=
  let flat : List ℚ := match residual with
    | none => raw_gradient
    | some r => raw_gradient.mapIdx (fun i x => x + scatterLookup r.1 r.2 i)
  let n : ℕ := flat.length
  let k : ℕ := min n (max (⌊(n : ℚ) * (1 - tau)⌋).toNat min_nonzeros)
  if flat.all (fun x => x = 0) then (([], [], 1), ([], []))
  else
    let abs_flat := flat.map (fun x => |x|)
    let kth := (List.insertionSort (· ≤ ·) abs_flat).getD (n - k) 0
    let idxs0 := (List.range n).filter (fun i => decide (kth ≤ abs_flat.getD i 0))
    let idxs1 :=
      if k < idxs0.length then (List.insertionSort (dgcTieOrder abs_flat) idxs0).take k
      else idxs0
    let idxs := List.insertionSort (· ≤ ·) idxs1
    let selected_vals := idxs.map (fun i => flat.getD i 0)
    let max_abs :=
      if 0 < selected_vals.length then (selected_vals.map (fun x => |x|)).foldl max 0 else 1
    let scale := if max_abs = 0 then 1 else max_abs / (max_int : ℚ)
    let vals_int :=
      selected_vals.map (fun v => min (max_int : ℤ) (max (-(max_int : ℤ)) (pyRound (v / scale))))
    let residual_idxs := (List.range n).filter (fun i => decide (i ∉ idxs))
    ((idxs, vals_int, scale), (residual_idxs, residual_idxs.map (fun i => flat.getD i 0)))

end DGC

section LeafCodec

/-- Value of a single hexadecimal digit, by character code: `0`-`9` are
48-57, `a`-`f` are 97-102, `A`-`F` are 65-70 (`bytes.fromhex` accepts both
cases). -/
def hexVal (c : Char) : Option ℕ :=
  if 48 ≤ c.toNat ∧ c.toNat ≤ 57 then some (c.toNat - 48)
  else if 97 ≤ c.toNat ∧ c.toNat ≤ 102 then some (c.toNat - 87)
  else if 65 ≤ c.toNat ∧ c.toNat ≤ 70 then some (c.toNat - 55)
  else none

/-- `bytes.fromhex`: pairs of hex digits to bytes (failing on odd length or
a non-hex character, as Python raises `ValueError`). -/
def fromHex : List Char → Option (List ℕ)
  | [] => some []
  | [_] => none
  | c1 :: c2 :: rest => do
    let hi ← hexVal c1
    let lo ← hexVal c2
    let r ← fromHex rest
    pure ((16 * hi + lo) :: r)

/-- The address normalization of `DGC.pack_leaf`: strip a leading `0x`,
left-pad with `'0'` to 40 hex digits, decode. -/
def addrBytesOf (miner_address : List Char) : Option (List ℕ) :=
  let addr := if miner_address.take 2 = ['0', 'x'] then miner_address.drop 2 else miner_address
  fromHex (List.replicate (40 - addr.length) '0' ++ addr)

/-- `struct.pack` of an unsigned big-endian field of `width` bytes
(raising `struct.error` when the value does not fit). -/
def packBE (width x : ℕ) : Option (List ℕ) :=
  if x < 256 ^ width then some (int_to_bytes x width) else none

/-- `struct.pack(">q", v)`: signed 8-byte big-endian, two's complement. -/
def packSigned8 (v : ℤ) : Option (List ℕ) :=
  if -(2 ^ 63) ≤ v ∧ v < 2 ^ 63 then some (int_to_bytes ((v % (2 ^ 64 : ℤ)).toNat) 8)
  else none

/-- The entry loop of `pack_leaf`: 8-byte unsigned index then 8-byte
signed value, per zipped pair. -/
def packEntries : List (ℕ × ℤ) → Option (List ℕ)
  | [] => some []
  | p :: rest => do
    let ib ← packBE 8 p.1
    let vb ← packSigned8 p.2
    let rb ← packEntries rest
    pure (ib ++ vb ++ rb)

/-- `DGC.pack_leaf` of `dgc.py`.  Addresses are hex strings (`List Char`);
the nonce is carried as its UTF-8 byte string (CPython's `str.encode` /
`bytes.decode` round-trip is the identity on it). -/
def pack_leaf (miner_address : List Char) (indices : List ℕ) (values_int : List ℤ)
    (nonce : List ℕ) : Option (List ℕ) := do
  let addr_bytes ← addrBytesOf miner_address
  let cnt ← packBE 4 indices.length
  let body ← packEntries (indices.zip values_int)
  let nb ← packBE 2 nonce.length
  pure (addr_bytes ++ cnt ++ body ++ nb ++ nonce)

/-- `int.from_bytes(bs, "big")`. -/
def bytesToNat (bs : List ℕ) : ℕ := bs.foldl (fun acc b => 256 * acc + b) 0

/-- `struct.unpack_from` of an unsigned big-endian field: fails when the
buffer is too short (Python raises), never on a long buffer. -/
def readBE (raw : List ℕ) (off width : ℕ) : Option ℕ :=
  if off + width ≤ raw.length then some (bytesToNat ((raw.drop off).take width)) else none

/-- Lowercase hex digit of a nibble, as produced by `bytes.hex()`. -/
def hexChar (n : ℕ) : Char := if n < 10 then Char.ofNat (48 + n) else Char.ofNat (87 + n)

/-- Two lowercase hex digits of a byte. -/
def byteHex (b : ℕ) : List Char := [hexChar (b / 16), hexChar (b % 16)]

/-- A lowercase hexadecimal digit character (`0`-`9` or `a`-`f`), the
alphabet `bytes.hex()` emits. -/
def isLowerHexChar (c : Char) : Prop :=
  (48 ≤ c.toNat ∧ c.toNat ≤ 57) ∨ (97 ≤ c.toNat ∧ c.toNat ≤ 102)

instance (c : Char) : Decidable (isLowerHexChar c) := by
  unfold isLowerHexChar
  infer_instance

/-- The entry loop of `unpack_leaf`: read `cnt` pairs of 8-byte unsigned
index and 8-byte signed (two's complement) value starting at `off`. -/
def readEntries (raw : List ℕ) : ℕ → ℕ → Option (List ℕ × List ℤ)
  | _, 0 => some ([], [])
  | off, cnt + 1 => do
    let i ← readBE raw off 8
    let vraw ← readBE raw (off + 8) 8
    let r ← readEntries raw (off + 16) cnt
    pure (i :: r.1, (if 2 ^ 63 ≤ vraw then (vraw : ℤ) - 2 ^ 64 else (vraw : ℤ)) :: r.2)

/-- `DGC.unpack_leaf` of `dgc.py`: the miner address comes back as the
`0x`-prefixed lowercase hex of the first 20 bytes; the nonce is read by
slicing (Python slicing never raises, so no length check there). -/
def unpack_leaf (raw : List ℕ) : Option (List Char × List ℕ × List ℤ × List ℕ) := do
  let miner_address := '0' :: 'x' :: ((raw.take 20).map byteHex).flatten
  let cnt ← readBE raw 20 4
  let iv ← readEntries raw 24 cnt
  let nb ← readBE raw (24 + 16 * cnt) 2
  pure (miner_address, iv.1, iv.2, (raw.drop (24 + 16 * cnt + 2)).take nb)

end LeafCodec

section BasicLemmas

variable (coordsOf : Point → ℕ × ℕ)

theorem two_pow_64_lt_N : 2 ^ 64 < N := by decide

theorem natCast_point_inj {a b : ℕ} (ha : a < N) (hb : b < N)
    (h : (a : Point) = (b : Point)) : a = b := by
  have := congrArg ZMod.val h
  rwa [ZMod.val_cast_of_lt ha, ZMod.val_cast_of_lt hb] at this

theorem natCast_point_ne_zero {a : ℕ} (h0 : 0 < a) (ha : a < N) : (a : Point) ≠ 0 := by
  intro h
  rcases (ZMod.natCast_zmod_eq_zero_iff_dvd a N).mp h with ⟨c, hc⟩
  rcases c with _ | c
  · omega
  · have : N ≤ a := by
      calc N ≤ N * (c + 1) := Nat.le_mul_of_pos_right _ (Nat.succ_pos c)
      _ = a := hc.symm
    omega

theorem intCast_emod_point (a : ℤ) : ((a % (N : ℤ) : ℤ) : Point) = (a : Point) :=
  ZMod.intCast_mod a N

theorem toNat_emod_cast_point (a : ℤ) : (((a % (N : ℤ)).toNat : ℕ) : Point) = (a : Point) := by
  have hnn : 0 ≤ a % (N : ℤ) := Int.emod_nonneg a (by exact_mod_cast (NeZero.ne N))
  rw [← Int.cast_natCast, Int.toNat_of_nonneg hnn, intCast_emod_point]

theorem safe_scalar_mul_eq (p k : Point) : safe_scalar_mul p k = p * k := by
  unfold safe_scalar_mul
  split
  · simp [*]
  · rfl

theorem negOneScalar_eq : negOneScalar = -1 := by
  unfold negOneScalar
  rw [intCast_emod_point]
  push_cast
  ring

theorem neg_mG_eq (m : ℕ) : (((-(m : ℤ)) % (N : ℤ) : ℤ) : Point) = -(m : Point) := by
  rw [intCast_emod_point]
  push_cast
  ring

theorem foldl_add_eq_sum {M α : Type} [AddCommMonoid M] (f : α → M) :
    ∀ (l : List α) (c : M), l.foldl (fun a x => a + f x) c = c + (l.map f).sum := by
  intro l
  induction l with
  | nil => intro c; simp
  | cons a l ih => intro c; simp [ih, add_assoc]

theorem foldl_mod_eq_sum_mod {α : Type} (f : α → ℕ) :
    ∀ (l : List α) (c : ℕ), c < N → l.foldl (fun a x => (a + f x) % N) c = (c + (l.map f).sum) % N := by
  intro l
  induction l with
  | nil =>
    intro c hc
    simp [Nat.mod_eq_of_lt hc]
  | cons a l ih =>
    intro c _
    simp only [List.foldl_cons, List.map_cons, List.sum_cons]
    rw [ih _ (Nat.mod_lt _ (Nat.pos_of_ne_zero (NeZero.ne N))), Nat.mod_add_mod,
      Nat.add_assoc]

end BasicLemmas

section BSGSLemmas

variable (coordsOf : Point → ℕ × ℕ)

theorem le_ceil_sqrt_sq (b : ℕ) : b ≤ ceil_sqrt b * ceil_sqrt b := by
  unfold ceil_sqrt
  split
  · omega
  · have h := Nat.lt_succ_sqrt b
    rw [Nat.succ_eq_add_one] at h
    exact Nat.le_of_lt h

theorem ceil_sqrt_le {b c : ℕ} (h : b ≤ c * c) : ceil_sqrt b ≤ c := by
  unfold ceil_sqrt
  split
  · calc Nat.sqrt b ≤ Nat.sqrt (c * c) := Nat.sqrt_le_sqrt h
    _ = c := Nat.sqrt_eq c
  · rename_i hne
    by_contra hlt
    have hcs : c ≤ Nat.sqrt b := by omega
    have h1 : c * c ≤ b := le_trans (Nat.mul_le_mul hcs hcs) (Nat.sqrt_le b)
    have h2 : b = c * c := le_antisymm h h1
    have : Nat.sqrt b = c := by rw [h2, Nat.sqrt_eq]
    exact hne (by rw [this, ← h2])

/-- The step function used to build the baby table. -/
def babyStep (tbl : Option (ℕ × ℕ) → Option ℕ) (j : ℕ) : Option (ℕ × ℕ) → Option ℕ :=
  fun key => if key = _point_key coordsOf (j : Point) then some j else tbl key

theorem babyTable_eq_foldl (m : ℕ) :
    babyTable coordsOf m =
      (List.range' 1 (m - 1)).foldl (babyStep coordsOf)
        (fun key => if key = none then some 0 else none) := rfl

theorem babyFold_notin (key : Option (ℕ × ℕ)) :
    ∀ (l : List ℕ) (g : Option (ℕ × ℕ) → Option ℕ),
      (∀ j ∈ l, key ≠ _point_key coordsOf (j : Point)) →
      (l.foldl (babyStep coordsOf) g) key = g key := by
  intro l
  induction l with
  | nil => intro g _; rfl
  | cons a l ih =>
    intro g hne
    simp only [List.foldl_cons]
    rw [ih _ (fun j hj => hne j (List.mem_cons_of_mem a hj))]
    unfold babyStep
    rw [if_neg (hne a (List.mem_cons_self a l))]

theorem babyFold_mem {j : ℕ} :
    ∀ (l : List ℕ) (g : Option (ℕ × ℕ) → Option ℕ), j ∈ l →
      (∀ j' ∈ l, _point_key coordsOf (j' : Point) = _point_key coordsOf (j : Point) → j' = j) →
      (l.foldl (babyStep coordsOf) g) (_point_key coordsOf (j : Point)) = some j := by
  intro l
  induction l with
  | nil => intro g h; exact absurd h (List.not_mem_nil j)
  | cons a l ih =>
    intro g hmem huniq
    simp only [List.foldl_cons]
    by_cases hjl : j ∈ l
    · exact ih _ hjl (fun j' hj' => huniq j' (List.mem_cons_of_mem a hj'))
    · have hja : j = a := by
        rcases List.mem_cons.mp hmem with h | h
        · exact h
        · exact absurd h hjl
      subst hja
      rw [babyFold_notin]
      · unfold babyStep
        rw [if_pos rfl]
      · intro j' hj' hkey
        have : j' = j := huniq j' (List.mem_cons_of_mem j hj') hkey.symm
        subst this
        exact hjl hj'

theorem mem_range'_of (a s n : ℕ) (h1 : s ≤ a) (h2 : a < s + n) : a ∈ List.range' s n := by
  rw [List.mem_range']
  exact ⟨a - s, by omega, by omega⟩

theorem babyTable_none (m : ℕ) (hm : m ≤ 2 ^ 32) : babyTable coordsOf m none = some 0 := by
  rw [babyTable_eq_foldl, babyFold_notin]
  · rfl
  · intro j hj
    rw [List.mem_range'] at hj
    rcases hj with ⟨i, hi, hji⟩
    have h1 : 1 ≤ j := by omega
    have h2 : j < m := by omega
    have hN : j < N := by
      have := two_pow_64_lt_N
      have : (2 : ℕ) ^ 32 ≤ 2 ^ 64 := Nat.pow_le_pow_right (by norm_num) (by norm_num)
      omega
    unfold _point_key
    rw [if_neg (natCast_point_ne_zero h1 hN)]
    simp

theorem babyTable_lookup (m : ℕ) (hm : m ≤ 2 ^ 32)
    (hinj : ∀ a b : Point, _point_key coordsOf a = _point_key coordsOf b → a = b)
    {j : ℕ} (h1 : 1 ≤ j) (h2 : j < m) :
    babyTable coordsOf m (_point_key coordsOf (j : Point)) = some j := by
  have hmN : m ≤ N := by
    have := two_pow_64_lt_N
    have h32 : (2 : ℕ) ^ 32 ≤ 2 ^ 64 := Nat.pow_le_pow_right (by norm_num) (by norm_num)
    omega
  rw [babyTable_eq_foldl, babyFold_mem]
  · exact mem_range'_of j 1 (m - 1) h1 (by omega)
  · intro j' hj' hkey
    rw [List.mem_range'] at hj'
    rcases hj' with ⟨i, hi, hji⟩
    have hj'1 : 1 ≤ j' := by omega
    have hj'2 : j' < m := by omega
    have := hinj _ _ hkey
    exact natCast_point_inj (by omega) (by omega) this

end BSGSLemmas

section BSGSCorrect

variable (coordsOf : Point → ℕ × ℕ)

theorem bsgsGo_hit {baby : Option (ℕ × ℕ) → Option ℕ} {pt neg_mG : Point} {m bound : ℕ}
    {fuel i : ℕ} {current : Point} {j : ℕ}
    (hb : baby (_point_key coordsOf current) = some j) :
    bsgsGo coordsOf baby pt neg_mG m bound (fuel + 1) i current =
      if i * m + j < bound ∧ ((i * m + j : ℕ) : Point) = pt then ((i * m + j : ℕ) : ℤ)
      else bsgsGo coordsOf baby pt neg_mG m bound fuel (i + 1) (current + neg_mG) := by
  rw [bsgsGo, hb]

theorem bsgsGo_miss {baby : Option (ℕ × ℕ) → Option ℕ} {pt neg_mG : Point} {m bound : ℕ}
    {fuel i : ℕ} {current : Point}
    (hb : baby (_point_key coordsOf current) = none) :
    bsgsGo coordsOf baby pt neg_mG m bound (fuel + 1) i current =
      bsgsGo coordsOf baby pt neg_mG m bound fuel (i + 1) (current + neg_mG) := by
  rw [bsgsGo, hb]

theorem bsgsGo_sound (baby : Option (ℕ × ℕ) → Option ℕ) (pt neg_mG : Point) (m bound : ℕ) :
    ∀ (fuel i : ℕ) (current : Point),
      bsgsGo coordsOf baby pt neg_mG m bound fuel i current = -1 ∨
        ∃ c : ℕ, bsgsGo coordsOf baby pt neg_mG m bound fuel i current = (c : ℤ) ∧
          c < bound ∧ (c : Point) = pt := by
  intro fuel
  induction fuel with
  | zero => intro i current; left; rfl
  | succ fuel ih =>
    intro i current
    cases hb : baby (_point_key coordsOf current) with
    | none =>
      rw [bsgsGo_miss coordsOf hb]
      exact ih (i + 1) (current + neg_mG)
    | some j =>
      rw [bsgsGo_hit coordsOf hb]
      by_cases hc : i * m + j < bound ∧ ((i * m + j : ℕ) : Point) = pt
      · right
        exact ⟨i * m + j, if_pos hc, hc.1, hc.2⟩
      · rw [if_neg hc]
        exact ih (i + 1) (current + neg_mG)

theorem bsgs_cached_sound {pt : Point} {bound : ℕ} {v : ℤ}
    (hv : bsgs_cached coordsOf pt bound = v) (h0 : 0 ≤ v) : (v : Point) = pt := by
  unfold bsgs_cached at hv
  split at hv
  · rename_i h; rw [← hv]; simpa using h.symm
  · rcases bsgsGo_sound coordsOf (babyTable coordsOf (ceil_sqrt bound)) pt _ (ceil_sqrt bound)
      bound (ceil_sqrt bound) 0 pt with h | ⟨c, hc, _, hcpt⟩
    · rw [h] at hv; omega
    · rw [hc] at hv
      rw [← hv]
      push_cast
      exact hcpt

theorem bsgsGo_complete
    (hinj : ∀ a b : Point, _point_key coordsOf a = _point_key coordsOf b → a = b)
    {s m bound : ℕ} (hsb : s < bound) (hbm : bound ≤ m * m) (hm32 : m ≤ 2 ^ 32) :
    ∀ (fuel i : ℕ), i ≤ s / m → s / m < i + fuel →
      bsgsGo coordsOf (babyTable coordsOf m) ((s : ℕ) : Point) (-(m : Point)) m bound fuel i
        (((s - i * m : ℕ)) : Point) = (s : ℤ) := by
  have hm0 : 0 < m := by
    rcases Nat.eq_zero_or_pos m with h | h
    · subst h; simp at hbm; omega
    · exact h
  have hmN : m * m < N := by
    have h1 : m * m ≤ 2 ^ 32 * 2 ^ 32 := Nat.mul_le_mul hm32 hm32
    have h2 : (2 : ℕ) ^ 32 * 2 ^ 32 = 2 ^ 64 := by norm_num
    have := two_pow_64_lt_N
    omega
  have hsN : s < N := by omega
  have hcand : s / m * m + s % m = s := by
    rw [Nat.mul_comm]
    exact Nat.div_add_mod s m
  intro fuel
  induction fuel with
  | zero => intro i h1 h2; omega
  | succ fuel ih =>
    intro i hi hif
    have him : i * m ≤ s := by
      calc i * m ≤ s / m * m := Nat.mul_le_mul_right m hi
      _ ≤ s := Nat.div_mul_le_self s m
    by_cases hieq : i = s / m
    · -- the hit iteration: current is (s mod m) * G
      subst hieq
      have hrem : s - s / m * m = s % m := by omega
      rw [hrem]
      have hjm : s % m < m := Nat.mod_lt s hm0
      by_cases hj0 : s % m = 0
      · rw [hj0, Nat.cast_zero]
        have hkey : _point_key coordsOf (0 : Point) = none := by
          unfold _point_key; rw [if_pos rfl]
        have hb : babyTable coordsOf m (_point_key coordsOf (0 : Point)) = some 0 := by
          rw [hkey]; exact babyTable_none coordsOf m hm32
        rw [bsgsGo_hit coordsOf hb]
        have hcast : ((s / m * m + 0 : ℕ) : Point) = ((s : ℕ) : Point) := by
          congr 1
          omega
        rw [if_pos ⟨by omega, hcast⟩]
        congr 1
        omega
      · have hb : babyTable coordsOf m (_point_key coordsOf ((s % m : ℕ) : Point)) = some (s % m) :=
          babyTable_lookup coordsOf m hm32 hinj (by omega) hjm
        rw [bsgsGo_hit coordsOf hb]
        have hcast : ((s / m * m + s % m : ℕ) : Point) = ((s : ℕ) : Point) := by
          congr 1
        rw [if_pos ⟨by omega, hcast⟩]
        congr 1
    · -- a pre-hit iteration: any verified early return already equals s
      have hilt : i < s / m := by omega
      have hmle : i * m + m ≤ s := by
        have h1 : (i + 1) * m ≤ s / m * m := Nat.mul_le_mul_right m (by omega)
        rw [Nat.add_mul, one_mul] at h1
        have h2 : s / m * m ≤ s := Nat.div_mul_le_self s m
        omega
      have hrec : (((s - i * m : ℕ)) : Point) + -(m : Point) = (((s - (i + 1) * m : ℕ)) : Point) := by
        rw [Nat.add_mul, one_mul]
        have h1 : s - i * m - m = s - (i * m + m) := by omega
        have h2 : m ≤ s - i * m := by omega
        rw [← h1, Nat.cast_sub h2, Nat.cast_sub him]
        ring
      cases hb : babyTable coordsOf m (_point_key coordsOf (((s - i * m : ℕ)) : Point)) with
      | none =>
        rw [bsgsGo_miss coordsOf hb, hrec]
        exact ih (i + 1) (by omega) (by omega)
      | some j =>
        rw [bsgsGo_hit coordsOf hb]
        by_cases hc : i * m + j < bound ∧ ((i * m + j : ℕ) : Point) = ((s : ℕ) : Point)
        · rw [if_pos hc]
          congr 1
          exact natCast_point_inj (by omega) hsN hc.2
        · rw [if_neg hc, hrec]
          exact ih (i + 1) (by omega) (by omega)

theorem bsgs_cached_complete
    (hinj : ∀ a b : Point, _point_key coordsOf a = _point_key coordsOf b → a = b)
    {s bound : ℕ} (hs : s < bound) (hb : bound ≤ 2 ^ 64) :
    bsgs_cached coordsOf ((s : ℕ) : Point) bound = (s : ℤ) := by
  unfold bsgs_cached
  split
  · rename_i h
    rcases (ZMod.natCast_zmod_eq_zero_iff_dvd s N).mp h with ⟨c, hc⟩
    have hsN : s < N := by
      have := two_pow_64_lt_N; omega
    have hs0 : s = 0 := by
      rcases c with _ | c
      · omega
      · have : N ≤ s := by
          calc N ≤ N * (c + 1) := Nat.le_mul_of_pos_right _ (Nat.succ_pos c)
          _ = s := hc.symm
        omega
    omega
  · have hb' : bound ≤ 2 ^ 32 * 2 ^ 32 := by
      calc bound ≤ 2 ^ 64 := hb
      _ = 2 ^ 32 * 2 ^ 32 := by norm_num
    have hm32 : ceil_sqrt bound ≤ 2 ^ 32 := ceil_sqrt_le hb'
    have hbm : bound ≤ ceil_sqrt bound * ceil_sqrt bound := le_ceil_sqrt_sq bound
    have hm0 : 0 < ceil_sqrt bound := by
      rcases Nat.eq_zero_or_pos (ceil_sqrt bound) with h | h
      · rw [h] at hbm; omega
      · exact h
    simp only [neg_mG_eq]
    have hdiv : s / ceil_sqrt bound < ceil_sqrt bound :=
      Nat.div_lt_of_lt_mul (by omega)
    have h0 := bsgsGo_complete coordsOf hinj hs hbm hm32 (ceil_sqrt bound) 0
      (Nat.zero_le _) (by omega)
    simpa using h0

theorem bsgs_cached_not_found {s bound : ℕ} (hb0 : 0 < bound) (hsb : bound ≤ s)
    (hsN : s < N) (hb : bound ≤ 2 ^ 64) :
    bsgs_cached coordsOf ((s : ℕ) : Point) bound = -1 := by
  have hne : ((s : ℕ) : Point) ≠ 0 := natCast_point_ne_zero (by omega) hsN
  unfold bsgs_cached
  rw [if_neg hne]
  rcases bsgsGo_sound coordsOf (babyTable coordsOf (ceil_sqrt bound)) ((s : ℕ) : Point) _
    (ceil_sqrt bound) bound (ceil_sqrt bound) 0 ((s : ℕ) : Point) with h | ⟨c, hc, hcb, hcpt⟩
  · exact h
  · have hcN : c < N := by
      have := two_pow_64_lt_N; omega
    have : c = s := natCast_point_inj hcN hsN hcpt
    omega

end BSGSCorrect

section SumLemmas

variable (coordsOf : Point → ℕ × ℕ)
variable (Hash : List ℕ → ℕ)

theorem natCast_sum_point (l : List ℕ) :
    ((l.sum : ℕ) : Point) = (l.map (fun x : ℕ => (x : Point))).sum := by
  induction l with
  | nil => simp
  | cons a l ih => push_cast [ih]; simp

theorem intCast_sum_point (l : List ℤ) :
    ((l.sum : ℤ) : Point) = (l.map (fun x : ℤ => (x : Point))).sum := by
  induction l with
  | nil => simp
  | cons a l ih => push_cast [ih]; simp

theorem aggAt_eq_sum (ciphertexts_U : List (List Point)) (wmod : List ℕ) (k : ℕ) :
    aggAt ciphertexts_U wmod k =
      ((ciphertexts_U.zip wmod).map (fun p => p.1.getD k 0 * ((p.2 : ℕ) : Point))).sum := by
  unfold aggAt
  rw [foldl_add_eq_sum]
  simp only [safe_scalar_mul_eq, zero_add]

theorem SSignedAt_eq_sum (wraw : List ℤ) (upds : List (List ℤ)) (k : ℕ) :
    SSignedAt wraw upds k = ((wraw.zip upds).map (fun p => p.1 * p.2.getD k 0)).sum := by
  unfold SSignedAt
  rw [foldl_add_eq_sum]
  simp

theorem SSignedAt_scaled (ws : List ℚ) (scale_weights : ℤ) (upds : List (List ℤ)) (k : ℕ) :
    SSignedAt (weightScaledRaw ws scale_weights) upds k =
      ((ws.zip upds).map
        (fun p => pyRound (p.1 * (scale_weights : ℚ)) * p.2.getD k 0)).sum := by
  rw [SSignedAt_eq_sum]
  unfold weightScaledRaw
  rw [List.zip_map_left, List.map_map]
  apply congrArg
  apply List.map_congr_left
  intro p _
  cases p
  simp [Prod.map]

theorem key_derive_cast (sk_TP : ℕ) (pk_miners : List Point) (ws : List ℚ)
    (ctr : ℕ) (task_id : List ℕ) (scale_weights : ℤ) :
    ((key_derive coordsOf Hash sk_TP pk_miners ws ctr task_id scale_weights : ℕ) : Point) =
      ((pk_miners.zip ws).map
        (fun pw =>
          ((derive_ri_from_shared coordsOf Hash (pw.1 * (sk_TP : Point)) ctr task_id : ℕ) : Point) *
            (((pyRound (pw.2 * (scale_weights : ℚ)) % (N : ℤ)).toNat : ℕ) : Point))).sum := by
  unfold key_derive
  simp only []
  rw [foldl_mod_eq_sum_mod _ _ 0 (Nat.pos_of_ne_zero (NeZero.ne N)), Nat.zero_add,
    ZMod.natCast_mod, natCast_sum_point, List.map_map]
  apply congrArg
  apply List.map_congr_left
  intro pw _
  simp only [Function.comp_apply]
  push_cast
  ring

theorem encrypt_getD (sk_miner : ℕ) (pk_TP pk_A : Point) (int_delta : List ℤ)
    (ctr : ℕ) (task_id : List ℕ) (k : ℕ) (hk : k < int_delta.length) :
    (encrypt_integer_vector coordsOf Hash sk_miner pk_TP pk_A int_delta ctr task_id).getD k 0 =
      pk_TP * ((derive_ri_from_shared coordsOf Hash (pk_TP * (sk_miner : Point)) ctr task_id : ℕ) : Point) +
        ((int_delta.getD k 0 % (N : ℤ) : ℤ) : Point) * pk_A := by
  unfold encrypt_integer_vector
  simp only [List.getD_eq_getElem?_getD, List.getElem?_map,
    List.getElem?_eq_getElem hk, Option.map_some', Option.getD_some]

theorem sum_cancel {α : Type} (T c : Point) (fA fB fC : α → Point) :
    ∀ zl : List α, (∀ p ∈ zl, fA p - T * fB p = fC p * c) →
      (zl.map fA).sum - T * (zl.map fB).sum = (zl.map fC).sum * c := by
  intro zl
  induction zl with
  | nil => intro _; simp
  | cons p zl ih =>
    intro h
    have hp := h p (List.mem_cons_self p zl)
    have ht := ih (fun q hq => h q (List.mem_cons_of_mem p hq))
    simp only [List.map_cons, List.sum_cons]
    calc fA p + (zl.map fA).sum - T * (fB p + (zl.map fB).sum)
        = (fA p - T * fB p) + ((zl.map fA).sum - T * (zl.map fB).sum) := by ring
    _ = fC p * c + (zl.map fC).sum * c := by rw [hp, ht]
    _ = (fC p + (zl.map fC).sum) * c := by ring

end SumLemmas

section Pipeline

variable (coordsOf : Point → ℕ × ℕ)
variable (Hash : List ℕ → ℕ)

theorem EStarAt_eq_of_agg {sk_FE sk_A : ℕ} {pk_TP : Point} {cts : List (List Point)}
    {ws : List ℚ} {sw : ℤ} {k : ℕ}
    (h : aggIsNone cts (weightScaledMod ws sw) k = false) :
    EStarAt sk_FE sk_A pk_TP cts ws sw k =
      safe_scalar_mul
        (aggAt cts (weightScaledMod ws sw) k +
          safe_scalar_mul (safe_scalar_mul pk_TP (sk_FE : Point)) negOneScalar)
        ((sk_A : Point))⁻¹ := by
  unfold EStarAt
  rw [if_neg (by simp [h])]

theorem estar_final (T c inv Sa Sb Sc : Point) (h : Sa - T * Sb = Sc * c)
    (hci : c * inv = 1) : (Sa + -(T * Sb)) * inv = Sc := by
  have h2 : Sa + -(T * Sb) = Sc * c := by rw [← h]; ring
  rw [h2, mul_assoc, hci, mul_one]

theorem EStar_pipeline (sk_TP sk_A : ℕ) (ctr : ℕ) (task_id : List ℕ)
    (scale_weights : ℤ) (ms : List (ℕ × List ℤ)) (ws : List ℚ) (k : ℕ)
    (hk : ∀ p ∈ ms, k < p.2.length) (hA : IsUnit ((sk_A : ℕ) : Point))
    (hnz : aggIsNone
      (ms.map (fun su =>
        encrypt_integer_vector coordsOf Hash su.1 ((sk_TP : Point) * G) ((sk_A : Point) * G)
          su.2 ctr task_id))
      (weightScaledMod ws scale_weights) k = false) :
    EStarAt
      (key_derive coordsOf Hash sk_TP (ms.map (fun su => (su.1 : Point) * G)) ws ctr task_id
        scale_weights)
      sk_A ((sk_TP : Point) * G)
      (ms.map (fun su =>
        encrypt_integer_vector coordsOf Hash su.1 ((sk_TP : Point) * G) ((sk_A : Point) * G)
          su.2 ctr task_id))
      ws scale_weights k
    = ((SSignedAt (weightScaledRaw ws scale_weights) (ms.map Prod.snd) k : ℤ) : Point) := by
  rw [EStarAt_eq_of_agg hnz]
  simp only [safe_scalar_mul_eq, negOneScalar_eq, mul_neg_one]
  rw [aggAt_eq_sum, key_derive_cast, SSignedAt_eq_sum]
  unfold weightScaledMod weightScaledRaw
  simp only [List.map_map]
  rw [List.zip_map, List.zip_map_left, List.zip_map]
  rw [intCast_sum_point]
  rw [← List.zip_swap ms ws]
  simp only [List.map_map]
  refine estar_final _ ((sk_A : Point)) _ _ _ _ ?_ ?_
  · refine sum_cancel _ _ _ _ _ (ms.zip ws) ?_
    intro p hp
    obtain ⟨su, w⟩ := p
    obtain ⟨hmem, _⟩ := List.of_mem_zip hp
    simp only [Function.comp_apply, Prod.map, Prod.swap, Prod.fst, Prod.snd]
    rw [encrypt_getD coordsOf Hash su.1 _ _ su.2 ctr task_id k (hk _ hmem)]
    simp only [toNat_emod_cast_point, intCast_emod_point]
    have harg : ((sk_TP : Point) * G) * ((su.1 : ℕ) : Point)
        = (((su.1 : ℕ) : Point) * G) * ((sk_TP : ℕ) : Point) := by ring
    rw [harg]
    push_cast
    simp only [G, id_eq]
    ring
  · exact ZMod.mul_inv_of_unit _ hA

end Pipeline

section DecryptParam

variable (coordsOf : Point → ℕ × ℕ)

theorem int_two_pow_64_le_halfN : (2 : ℤ) ^ 64 ≤ (N : ℤ) / 2 := by decide

theorem two_pow_65_lt_N : 2 ^ 65 < N := by decide

theorem decrypt_param_recovers {sk_FE sk_A : ℕ} {pk_TP : Point} {cts : List (List Point)}
    {ws : List ℚ} {scale_weights : ℤ} {bound k : ℕ} {S : ℤ}
    (hinj : ∀ a b : Point, _point_key coordsOf a = _point_key coordsOf b → a = b)
    (hE : EStarAt sk_FE sk_A pk_TP cts ws scale_weights k = ((S : ℤ) : Point))
    (hSb : S.natAbs < bound) (hb : bound ≤ 2 ^ 64) :
    decrypt_param coordsOf sk_FE sk_A pk_TP cts ws scale_weights bound none k =
      Except.ok S := by
  have hhalf := int_two_pow_64_le_halfN
  unfold decrypt_param
  simp only [dynBoundAt, hE]
  rcases le_or_lt 0 S with h0 | h0
  · have hcast : ((S.toNat : ℕ) : Point) = ((S : ℤ) : Point) := by
      rw [← Int.cast_natCast, Int.toNat_of_nonneg h0]
    have hs : bsgs_cached coordsOf ((S : ℤ) : Point) bound = S := by
      have h := bsgs_cached_complete coordsOf hinj (s := S.toNat) (by omega) hb
      rw [hcast] at h
      rw [h, Int.toNat_of_nonneg h0]
    rw [hs, if_neg (by omega : ¬ S < 0)]
    show Except.ok (if (N : ℤ) / 2 < S then S - N else S) = Except.ok S
    rw [if_neg (by omega)]
  · have ha1 : 1 ≤ S.natAbs := by omega
    have hSneg : (S : ℤ) = -(S.natAbs : ℤ) := by omega
    have hcast : ((S : ℤ) : Point) = (((N - S.natAbs : ℕ)) : Point) := by
      have hle : S.natAbs ≤ N := by
        have := two_pow_64_lt_N; omega
      rw [Nat.cast_sub hle, ZMod.natCast_self, zero_sub]
      calc ((S : ℤ) : Point) = ((-(S.natAbs : ℤ) : ℤ) : Point) := by rw [← hSneg]
      _ = -(((S.natAbs : ℕ)) : Point) := by rw [Int.cast_neg, Int.cast_natCast]
    have hfail : bsgs_cached coordsOf ((S : ℤ) : Point) bound = -1 := by
      rw [hcast]
      refine bsgs_cached_not_found coordsOf (by omega) ?_ ?_ hb
      · have := two_pow_65_lt_N
        omega
      · omega
    rw [hfail, if_pos (by omega : (-1 : ℤ) < 0)]
    have hneg : safe_scalar_mul ((S : ℤ) : Point) negOneScalar = ((S.natAbs : ℕ) : Point) := by
      rw [safe_scalar_mul_eq, negOneScalar_eq]
      calc ((S : ℤ) : Point) * -1 = ((-(S.natAbs : ℤ) : ℤ) : Point) * -1 := by rw [← hSneg]
      _ = ((S.natAbs : ℕ) : Point) := by rw [Int.cast_neg, Int.cast_natCast]; ring
    rw [hneg]
    have hs2 : bsgs_cached coordsOf ((S.natAbs : ℕ) : Point) bound = (S.natAbs : ℤ) :=
      bsgs_cached_complete coordsOf hinj hSb hb
    rw [hs2, if_pos (Int.natCast_nonneg S.natAbs)]
    show Except.ok (if (N : ℤ) / 2 < -(S.natAbs : ℤ) then -(S.natAbs : ℤ) - N
      else -(S.natAbs : ℤ)) = Except.ok S
    rw [if_neg (by omega)]
    congr 1
    omega

theorem exceptMapList_ok {α β : Type} {f : α → Except String β} {g : α → β} :
    ∀ l : List α, (∀ a ∈ l, f a = Except.ok (g a)) →
      exceptMapList f l = Except.ok (l.map g) := by
  intro l
  induction l with
  | nil => intro _; rfl
  | cons a l ih =>
    intro h
    unfold exceptMapList
    rw [h a (List.mem_cons_self a l), ih (fun b hb => h b (List.mem_cons_of_mem a hb))]
    rfl

theorem exceptMapList_error {α β : Type} {f : α → Except String β} :
    ∀ l : List α, (∃ a ∈ l, ∃ e, f a = Except.error e) →
      ∃ e, exceptMapList f l = Except.error e := by
  intro l
  induction l with
  | nil => rintro ⟨a, ha, _⟩; exact absurd ha (List.not_mem_nil a)
  | cons b l ih =>
    rintro ⟨a, ha, e, hae⟩
    unfold exceptMapList
    cases hfb : f b with
    | error eb => exact ⟨eb, rfl⟩
    | ok vb =>
      have hal : a ∈ l := by
        rcases List.mem_cons.mp ha with h | h
        · subst h; rw [hae] at hfb; exact absurd hfb (by simp)
        · exact h
      rcases ih ⟨a, hal, e, hae⟩ with ⟨e', he'⟩
      rw [he']
      exact ⟨e', rfl⟩

end DecryptParam

section WitnessHelpers

theorem pyRound_intCast (z : ℤ) : pyRound ((z : ℤ) : ℚ) = z := by
  unfold pyRound
  rw [Int.floor_intCast, if_pos]
  rw [sub_self]
  norm_num

theorem pyRound_one : pyRound 1 = 1 := by
  have := pyRound_intCast 1
  norm_num at this
  exact this

/-- A collision-free stand-in coordinate assignment used by witnesses: its
baby-step key map is injective, the property the real curve's
`(x, y mod 2)` key has. -/
def coordsVal : Point → ℕ × ℕ := fun s => (s.val, 0)

theorem coordsVal_inj :
    ∀ a b : Point, _point_key coordsVal a = _point_key coordsVal b → a = b := by
  intro a b h
  unfold _point_key at h
  by_cases ha : a = 0 <;> by_cases hb : b = 0
  · rw [ha, hb]
  · rw [if_pos ha, if_neg hb] at h; exact absurd h (by simp)
  · rw [if_neg ha, if_pos hb] at h; exact absurd h (by simp)
  · rw [if_neg ha, if_neg hb] at h
    have hv : (coordsVal a).1 = (coordsVal b).1 := by
      have := Option.some.inj h
      exact congrArg Prod.fst this
    exact ZMod.val_injective N hv

/-- A stand-in hash for witnesses (the theorems hold for every hash). -/
def hashZero : List ℕ → ℕ := fun _ => 0

theorem encrypt_length (coordsOf : Point → ℕ × ℕ) (Hash : List ℕ → ℕ)
    (sk_miner : ℕ) (pk_TP pk_A : Point) (int_delta : List ℤ) (ctr : ℕ) (task_id : List ℕ) :
    (encrypt_integer_vector coordsOf Hash sk_miner pk_TP pk_A int_delta ctr task_id).length =
      int_delta.length := by
  unfold encrypt_integer_vector
  simp

theorem one_emod_N_toNat : ((1 : ℤ) % (N : ℤ)).toNat = 1 := by
  rw [Int.emod_eq_of_lt (by norm_num) (by exact_mod_cast (by decide : 1 < N))]
  rfl

theorem weightScaledMod_one_single : weightScaledMod [(1 : ℚ)] 1 = [1] := by
  unfold weightScaledMod weightScaledRaw
  norm_num [pyRound_one, one_emod_N_toNat]

theorem weightScaledMod_one_triple : weightScaledMod [(1 : ℚ), 1, 1] 1 = [1, 1, 1] := by
  unfold weightScaledMod weightScaledRaw
  norm_num [pyRound_one, one_emod_N_toNat]

end WitnessHelpers

/-- C1: for three or more miners holding small signed integer vectors of a
common length `L` (per-index weighted sums within the search bound, itself
at most `2 ^ 52` — the range on which the modelled `ceil_sqrt` is the
program's float computation and on which every recovered entry fits the
source's `np.int64` — far below the group order), integer-or-rational
weights scaled by `weightScale`, and a shared `(counter, task_id)`
context, `decrypt_aggregate` — run with the `sk_FE` produced by
`key_derive`, the aggregator keypair `(sk_A, sk_A * G)`, and the
ciphertexts produced by `encrypt_integer_vector` — returns at every index
`k` exactly the integer `Σ_i round(weight_i * weightScale) * update_i[k]`.
Stated for every coordinate assignment whose baby-step key is
collision-free (as secp256r1's `(x, y mod 2)` key is) and every hash
function under which no ciphertext column degenerates to all identity
points (`hagg`; with such a column the source's `agg is None` branch
returns `0` without unmasking — a hash-collision event on the real
SHA-256, excluded like baby-step key collisions are by `hinj`). -/
theorem C1_end_to_end_aggregation
    (coordsOf : Point → ℕ × ℕ) (Hash : List ℕ → ℕ)
    (sk_TP sk_A : ℕ) (ctr : ℕ) (task_id : List ℕ) (scale_weights : ℤ)
    (ms : List (ℕ × List ℤ)) (ws : List ℚ) (L bsgs_bound : ℕ)
    (hinj : ∀ a b : Point, _point_key coordsOf a = _point_key coordsOf b → a = b)
    (hA : IsUnit ((sk_A : ℕ) : Point))
    (hcount : 3 ≤ ms.length)
    (hws : ws.length = ms.length)
    (hL : ∀ p ∈ ms, p.2.length = L)
    (hagg : ∀ k < L, aggIsNone
      (ms.map (fun su =>
        encrypt_integer_vector coordsOf Hash su.1 ((sk_TP : Point) * G) ((sk_A : Point) * G)
          su.2 ctr task_id))
      (weightScaledMod ws scale_weights) k = false)
    (hb52 : bsgs_bound ≤ 2 ^ 52)
    (hbound : ∀ k < L,
      (((ws.zip (ms.map Prod.snd)).map
        (fun p => pyRound (p.1 * (scale_weights : ℚ)) * p.2.getD k 0)).sum).natAbs < bsgs_bound) :
    decrypt_aggregate coordsOf
      (key_derive coordsOf Hash sk_TP (ms.map (fun su => (su.1 : Point) * G)) ws ctr task_id
        scale_weights)
      sk_A ((sk_TP : Point) * G)
      (ms.map (fun su =>
        encrypt_integer_vector coordsOf Hash su.1 ((sk_TP : Point) * G) ((sk_A : Point) * G)
          su.2 ctr task_id))
      ws scale_weights bsgs_bound none
    = Except.ok ((List.range L).map (fun k =>
        ((ws.zip (ms.map Prod.snd)).map
          (fun p => pyRound (p.1 * (scale_weights : ℚ)) * p.2.getD k 0)).sum)) := by
  unfold decrypt_aggregate
  have hnum : ((ms.map (fun su =>
      encrypt_integer_vector coordsOf Hash su.1 ((sk_TP : Point) * G) ((sk_A : Point) * G)
        su.2 ctr task_id)).headD []).length = L := by
    cases ms with
    | nil => simp at hcount
    | cons m0 ms' =>
      simp only [List.map_cons, List.headD_cons, encrypt_length]
      exact hL m0 (List.mem_cons_self m0 ms')
  rw [hnum]
  apply exceptMapList_ok
  intro k hk
  have hkL : k < L := List.mem_range.mp hk
  have hk' : ∀ p ∈ ms, k < p.2.length := fun p hp => by rw [hL p hp]; exact hkL
  have hE := EStar_pipeline coordsOf Hash sk_TP sk_A ctr task_id scale_weights ms ws k hk' hA
    (hagg k hkL)
  rw [SSignedAt_scaled] at hE
  exact decrypt_param_recovers coordsOf hinj hE (hbound k hkL)
    (le_trans hb52 (by norm_num))

/-- Witness for C1: three miners with secrets 5, 6, 7, one-element updates
`[1]`, `[2]`, `[-1]`, unit weights and scale, bound 1024; the pipeline
returns the exact sum `[2]`. -/
theorem C1_end_to_end_aggregation_witness :
    decrypt_aggregate coordsVal
      (key_derive coordsVal hashZero 2
        ([((5 : ℕ), [(1 : ℤ)]), (6, [2]), (7, [-1])].map (fun su => (su.1 : Point) * G))
        [1, 1, 1] 1 [] 1)
      1 (((2 : ℕ) : Point) * G)
      ([((5 : ℕ), [(1 : ℤ)]), (6, [2]), (7, [-1])].map (fun su =>
        encrypt_integer_vector coordsVal hashZero su.1 (((2 : ℕ) : Point) * G)
          (((1 : ℕ) : Point) * G) su.2 1 []))
      [1, 1, 1] 1 1024 none
    = Except.ok ((List.range 1).map (fun k =>
        (([(1 : ℚ), 1, 1].zip ([((5 : ℕ), [(1 : ℤ)]), (6, [2]), (7, [-1])].map Prod.snd)).map
          (fun p => pyRound (p.1 * ((1 : ℤ) : ℚ)) * p.2.getD k 0)).sum)) :=
  C1_end_to_end_aggregation coordsVal hashZero 2 1 1 [] 1
    [((5 : ℕ), [(1 : ℤ)]), (6, [2]), (7, [-1])] [1, 1, 1] 1 1024
    coordsVal_inj (by rw [Nat.cast_one]; exact isUnit_one) (by decide) rfl (by decide)
    (by
      intro k hk
      interval_cases k
      rw [weightScaledMod_one_triple]
      decide)
    (by decide)
    (by
      intro k hk
      interval_cases k
      norm_num [pyRound_one])

section FailurePropagation

variable (coordsOf : Point → ℕ × ℕ)

theorem decrypt_param_fails {sk_FE sk_A : ℕ} {pk_TP : Point} {cts : List (List Point)}
    {ws : List ℚ} {scale_weights : ℤ} {bsgs_bound : ℕ}
    {upds : Option (List (List ℤ))} {k : ℕ}
    (h1 : bsgs_cached coordsOf (EStarAt sk_FE sk_A pk_TP cts ws scale_weights k)
      (dynBoundAt ws scale_weights bsgs_bound upds k) = -1)
    (h2 : bsgs_cached coordsOf
      (safe_scalar_mul (EStarAt sk_FE sk_A pk_TP cts ws scale_weights k) negOneScalar)
      (dynBoundAt ws scale_weights bsgs_bound upds k) = -1) :
    ∃ e, decrypt_param coordsOf sk_FE sk_A pk_TP cts ws scale_weights bsgs_bound upds k =
      Except.error e := by
  unfold decrypt_param
  dsimp only
  cases upds with
  | none =>
    rw [h1, if_pos (by omega : (-1 : ℤ) < 0), h2, if_neg (by omega : ¬ (0 : ℤ) ≤ -1)]
    exact ⟨_, rfl⟩
  | some u =>
    dsimp only
    by_cases hcov : updatesCover (weightScaledMod ws scale_weights).length u k
    · by_cases heq : EStarAt sk_FE sk_A pk_TP cts ws scale_weights k =
        safe_scalar_mul G ((SModAt (weightScaledMod ws scale_weights) u k : ℕ) : Point)
      · rw [if_pos hcov, if_pos heq]
        rw [h1, if_pos (by omega : (-1 : ℤ) < 0), h2, if_neg (by omega : ¬ (0 : ℤ) ≤ -1)]
        exact ⟨_, rfl⟩
      · rw [if_pos hcov, if_neg heq]
        exact ⟨_, rfl⟩
    · rw [if_neg hcov]
      rw [h1, if_pos (by omega : (-1 : ℤ) < 0), h2, if_neg (by omega : ¬ (0 : ℤ) ≤ -1)]
      exact ⟨_, rfl⟩

end FailurePropagation

/-- C3: (soundness) every non-negative value `v` returned by `bsgs_cached`
satisfies `v * G == target` exactly — with no assumption on the baby-step
key function, since a table hit is accepted only after the full point
verification, so key aliasing never yields a wrong result; and (failure
propagation) whenever at some parameter index both the positive search and
the negated-point fallback return `-1`, `decrypt_aggregate` returns a
typed error rather than any numeric vector. -/
theorem C3_bsgs_sound_and_failure_typed (coordsOf : Point → ℕ × ℕ) :
    (∀ (pt : Point) (bound : ℕ) (v : ℤ), bsgs_cached coordsOf pt bound = v → 0 ≤ v →
      ((v : ℤ) : Point) = pt) ∧
    (∀ (sk_FE sk_A : ℕ) (pk_TP : Point) (cts : List (List Point)) (ws : List ℚ)
      (scale_weights : ℤ) (bsgs_bound : ℕ) (upds : Option (List (List ℤ))) (k : ℕ),
      k < (cts.headD []).length →
      bsgs_cached coordsOf (EStarAt sk_FE sk_A pk_TP cts ws scale_weights k)
        (dynBoundAt ws scale_weights bsgs_bound upds k) = -1 →
      bsgs_cached coordsOf
        (safe_scalar_mul (EStarAt sk_FE sk_A pk_TP cts ws scale_weights k) negOneScalar)
        (dynBoundAt ws scale_weights bsgs_bound upds k) = -1 →
      ∃ e, decrypt_aggregate coordsOf sk_FE sk_A pk_TP cts ws scale_weights bsgs_bound upds =
        Except.error e) := by
  constructor
  · intro pt bound v hv h0
    exact bsgs_cached_sound coordsOf hv h0
  · intro sk_FE sk_A pk_TP cts ws scale_weights bsgs_bound upds k hk h1 h2
    unfold decrypt_aggregate
    apply exceptMapList_error
    refine ⟨k, List.mem_range.mpr hk, ?_⟩
    exact decrypt_param_fails coordsOf h1 h2

section C3WitnessSetup

theorem point_inv_one : ((1 : Point))⁻¹ = 1 := by
  have h := ZMod.mul_inv_of_unit (1 : Point) isUnit_one
  rwa [one_mul] at h

theorem estar_single_eval (P : Point) :
    EStarAt 0 1 0 [[P]] [1] 1 0 = P := by
  unfold EStarAt
  rw [weightScaledMod_one_single]
  by_cases hP : P = 0
  · subst hP
    rw [if_pos (by decide)]
  · rw [if_neg (by simp [aggIsNone, hP])]
    unfold aggAt
    simp only [safe_scalar_mul_eq, negOneScalar_eq, List.zip_cons_cons,
      List.zip_nil_right, List.foldl_cons, List.foldl_nil]
    norm_num [point_inv_one]

end C3WitnessSetup

/-- Witness for C3: a single ciphertext point `(2 ^ 65) * G` with search
bound 1024 defeats both the positive search and the negated fallback, and
`decrypt_aggregate` surfaces a typed error. -/
theorem C3_bsgs_sound_and_failure_typed_witness :
    ∃ e, decrypt_aggregate coordsVal 0 1 0 [[((2 ^ 65 : ℕ) : Point)]] [1] 1 1024 none =
      Except.error e := by
  have h1 : bsgs_cached coordsVal (EStarAt 0 1 0 [[((2 ^ 65 : ℕ) : Point)]] [1] 1 0) 1024 = -1 := by
    rw [estar_single_eval]
    exact bsgs_cached_not_found coordsVal (by decide) (by decide) two_pow_65_lt_N (by decide)
  have h2 : bsgs_cached coordsVal
      (safe_scalar_mul (EStarAt 0 1 0 [[((2 ^ 65 : ℕ) : Point)]] [1] 1 0) negOneScalar)
      1024 = -1 := by
    rw [estar_single_eval, safe_scalar_mul_eq, negOneScalar_eq]
    have hneg : ((2 ^ 65 : ℕ) : Point) * -1 = (((N - 2 ^ 65 : ℕ)) : Point) := by
      rw [Nat.cast_sub (by decide : 2 ^ 65 ≤ N), ZMod.natCast_self]
      ring
    rw [hneg]
    exact bsgs_cached_not_found coordsVal (by decide) (by decide) (by decide) (by decide)
  exact (C3_bsgs_sound_and_failure_typed coordsVal).2 0 1 0 [[((2 ^ 65 : ℕ) : Point)]] [1] 1
    1024 none 0 Nat.one_pos h1 h2

section C9Setup

theorem exceptMapList_congr {α β : Type} {f g : α → Except String β} :
    ∀ l : List α, (∀ a ∈ l, f a = g a) → exceptMapList f l = exceptMapList g l := by
  intro l
  induction l with
  | nil => intro _; rfl
  | cons a l ih =>
    intro h
    unfold exceptMapList
    rw [h a (List.mem_cons_self a l), ih (fun b hb => h b (List.mem_cons_of_mem a hb))]

end C9Setup

/-- C9 (implicit): when `miner_int_updates` is supplied and indexable at
`k`, the caller-provided `bsgs_bound` is not the bound used for the
search; the bound is `max(1024, |Σ_i round(weight_i * weightScale) *
update_i[k]| + 16)`, and consequently `decrypt_aggregate` returns the same
result for any two values of `bsgs_bound`, so the documented
`RecoveryBound` precondition on the supplied bound has no effect in that
mode. -/
theorem C9_dynamic_bound_overrides (coordsOf : Point → ℕ × ℕ) :
    (∀ (ws : List ℚ) (scale_weights : ℤ) (bsgs_bound : ℕ) (upds : List (List ℤ)) (k : ℕ),
      updatesCover (weightScaledRaw ws scale_weights).length upds k →
      dynBoundAt ws scale_weights bsgs_bound (some upds) k =
        max 1024 ((SSignedAt (weightScaledRaw ws scale_weights) upds k).natAbs + 16)) ∧
    (∀ (sk_FE sk_A : ℕ) (pk_TP : Point) (cts : List (List Point)) (ws : List ℚ)
      (scale_weights : ℤ) (b1 b2 : ℕ) (upds : List (List ℤ)),
      (∀ k < (cts.headD []).length,
        updatesCover (weightScaledRaw ws scale_weights).length upds k) →
      decrypt_aggregate coordsOf sk_FE sk_A pk_TP cts ws scale_weights b1 (some upds) =
        decrypt_aggregate coordsOf sk_FE sk_A pk_TP cts ws scale_weights b2 (some upds)) := by
  have hdyn : ∀ (ws : List ℚ) (scale_weights : ℤ) (b : ℕ) (upds : List (List ℤ)) (k : ℕ),
      updatesCover (weightScaledRaw ws scale_weights).length upds k →
      dynBoundAt ws scale_weights b (some upds) k =
        max 1024 ((SSignedAt (weightScaledRaw ws scale_weights) upds k).natAbs + 16) := by
    intro ws scale_weights b upds k hcov
    unfold dynBoundAt
    dsimp only
    rw [if_pos hcov]
  refine ⟨hdyn, ?_⟩
  intro sk_FE sk_A pk_TP cts ws scale_weights b1 b2 upds hcov
  unfold decrypt_aggregate
  apply exceptMapList_congr
  intro k hk
  have hkL := List.mem_range.mp hk
  have hd : dynBoundAt ws scale_weights b1 (some upds) k =
      dynBoundAt ws scale_weights b2 (some upds) k := by
    rw [hdyn ws scale_weights b1 upds k (hcov k hkL), hdyn ws scale_weights b2 upds k (hcov k hkL)]
  unfold decrypt_param
  rw [hd]

/-- Witness for C9: one miner, update `[5]`, bounds 7 and 99 give the same
outcome, and the dynamic bound is `max 1024 (5 + 16)`. -/
theorem C9_dynamic_bound_overrides_witness :
    (dynBoundAt [1] 1 7 (some [[(5 : ℤ)]]) 0 =
      max 1024 ((SSignedAt (weightScaledRaw [1] 1) [[(5 : ℤ)]] 0).natAbs + 16)) ∧
    decrypt_aggregate coordsVal 0 1 0 [[G]] [1] 1 7 (some [[(5 : ℤ)]]) =
      decrypt_aggregate coordsVal 0 1 0 [[G]] [1] 1 99 (some [[(5 : ℤ)]]) := by
  have hlen : (weightScaledRaw [(1 : ℚ)] 1).length = 1 := by
    unfold weightScaledRaw
    simp
  have hcov : updatesCover (weightScaledRaw [(1 : ℚ)] 1).length [[(5 : ℤ)]] 0 := by
    rw [hlen]
    decide
  constructor
  · exact (C9_dynamic_bound_overrides coordsVal).1 [1] 1 7 [[(5 : ℤ)]] 0 hcov
  · refine (C9_dynamic_bound_overrides coordsVal).2 0 1 0 [[G]] [1] 1 7 99 [[(5 : ℤ)]] ?_
    intro k hk
    have : k = 0 := by
      simp only [List.headD_cons, List.length_cons, List.length_nil] at hk
      omega
    rw [this]
    exact hcov

/-- C6: `derive_ri_from_shared` hashes exactly
`encode(sharedPoint) ‖ counter as 8 bytes big-endian ‖ len(task_id) as 2
bytes big-endian ‖ task_id` and reduces the big-endian digest mod `n`
(the digest function itself, SHA-256, is library code abstracted as the
parameter `Hash`); the point at infinity is encoded as 64 zero bytes; and
`key_derive` returns `sk_FE = Σ_i (r_i * w_i) mod n` with
`r_i = derive_ri_from_shared(pk_i * sk_TP, ctx)` and
`w_i = round(y_i * weightScale) mod n`, for every equal-length list of
miner public keys and weights. -/
theorem C6_key_derivation_formula (coordsOf : Point → ℕ × ℕ) (Hash : List ℕ → ℕ) :
    (point_to_bytes coordsOf 0 = List.replicate 64 0) ∧
    (∀ (shared : Point) (ctr : ℕ) (task_id : List ℕ),
      derive_ri_from_shared coordsOf Hash shared ctr task_id =
        Hash (point_to_bytes coordsOf shared ++ int_to_bytes ctr 8 ++
          int_to_bytes task_id.length 2 ++ task_id) % N) ∧
    (∀ (sk_TP : ℕ) (pk_miners : List Point) (ws : List ℚ) (ctr : ℕ) (task_id : List ℕ)
      (scale_weights : ℤ), pk_miners.length = ws.length →
      key_derive coordsOf Hash sk_TP pk_miners ws ctr task_id scale_weights =
        ((pk_miners.zip ws).map (fun pw =>
          derive_ri_from_shared coordsOf Hash (pw.1 * (sk_TP : Point)) ctr task_id *
            ((pyRound (pw.2 * (scale_weights : ℚ)) % (N : ℤ)).toNat))).sum % N) := by
  refine ⟨?_, fun shared ctr task_id => rfl, ?_⟩
  · unfold point_to_bytes
    rw [if_pos rfl]
  · intro sk_TP pk_miners ws ctr task_id scale_weights _
    unfold key_derive
    simp only []
    rw [foldl_mod_eq_sum_mod _ _ 0 (Nat.pos_of_ne_zero (NeZero.ne N)), Nat.zero_add]

/-- Witness for C6 at one miner public key `G`, weight 1, counter 1,
task id `[7]`. -/
theorem C6_key_derivation_formula_witness :
    (point_to_bytes coordsVal 0 = List.replicate 64 0) ∧
    (derive_ri_from_shared coordsVal hashZero G 1 [7] =
      hashZero (point_to_bytes coordsVal G ++ int_to_bytes 1 8 ++
        int_to_bytes ([7] : List ℕ).length 2 ++ [7]) % N) ∧
    (key_derive coordsVal hashZero 3 [G] [1] 1 [7] 1 =
      (([G].zip [(1 : ℚ)]).map (fun pw =>
        derive_ri_from_shared coordsVal hashZero (pw.1 * ((3 : ℕ) : Point)) 1 [7] *
          ((pyRound (pw.2 * ((1 : ℤ) : ℚ)) % (N : ℤ)).toNat))).sum % N) :=
  ⟨(C6_key_derivation_formula coordsVal hashZero).1,
    (C6_key_derivation_formula coordsVal hashZero).2.1 G 1 [7],
    (C6_key_derivation_formula coordsVal hashZero).2.2 3 [G] [1] 1 [7] 1 rfl⟩

/-- C5: `compute_chunk_bound_py` returns the bound
`max(1024, maxAbsExactSum + 16)` capped at `max_chunk_bound_cap`, where
`maxAbsExactSum` is the largest absolute value, over the chunk's indices,
of the exact (non-modular) integer sum `Σ_i w_scaled_i * update_i[idx]`;
and whenever the required bound exceeds the cap, `solve_chunk` fails hard
with an error naming the offending index range `[start:fin]` instead of
proceeding with a truncated bound. -/
theorem C5_chunk_bound_and_cap_failure (coordsOf : Point → ℕ × ℕ) (sk_FE sk_A : ℕ)
    (pk_TP : Point) (cts : List (List Point)) (ws : List ℚ) (upds : List (List ℤ))
    (scale_weights : ℤ) (cap start fin : ℕ) :
    (compute_chunk_bound_py (weightScaledRaw ws scale_weights) upds cap start fin =
      (min (max 1024 (((List.range' start (fin - start)).map (fun idx =>
          ((((weightScaledRaw ws scale_weights).zip upds).map
            (fun p : ℤ × List ℤ => p.1 * p.2.getD idx 0)).sum).natAbs)).foldl max 0 + 16)) cap,
        ((List.range' start (fin - start)).map (fun idx =>
          ((((weightScaledRaw ws scale_weights).zip upds).map
            (fun p : ℤ × List ℤ => p.1 * p.2.getD idx 0)).sum).natAbs)).foldl max 0,
        decide (cap < max 1024 (((List.range' start (fin - start)).map (fun idx =>
          ((((weightScaledRaw ws scale_weights).zip upds).map
            (fun p : ℤ × List ℤ => p.1 * p.2.getD idx 0)).sum).natAbs)).foldl max 0 + 16)))) ∧
    (cap < max 1024 (((List.range' start (fin - start)).map (fun idx =>
        ((((weightScaledRaw ws scale_weights).zip upds).map
          (fun p : ℤ × List ℤ => p.1 * p.2.getD idx 0)).sum).natAbs)).foldl max 0 + 16) →
      solve_chunk coordsOf sk_FE sk_A pk_TP cts ws upds scale_weights cap start fin =
        Except.error ("Required BSGS bound " ++
          toString (((List.range' start (fin - start)).map (fun idx =>
            ((((weightScaledRaw ws scale_weights).zip upds).map
              (fun p : ℤ × List ℤ => p.1 * p.2.getD idx 0)).sum).natAbs)).foldl max 0 + 16) ++
          " exceeds max_chunk_bound_cap " ++ toString cap ++
          " for chunk [" ++ toString start ++ ":" ++ toString fin ++ "]. " ++
          "Either increase max_chunk_bound_cap, reduce chunk_size, or quantize/clip updates.")) := by
  have hM : ((List.range' start (fin - start)).map (fun idx =>
      (SSignedAt (weightScaledRaw ws scale_weights) upds idx).natAbs)).foldl max 0 =
      ((List.range' start (fin - start)).map (fun idx =>
        ((((weightScaledRaw ws scale_weights).zip upds).map
          (fun p : ℤ × List ℤ => p.1 * p.2.getD idx 0)).sum).natAbs)).foldl max 0 := by
    apply congrArg (fun l => List.foldl max 0 l)
    apply List.map_congr_left
    intro idx _
    rw [SSignedAt_eq_sum]
  have hcb : compute_chunk_bound_py (weightScaledRaw ws scale_weights) upds cap start fin =
      (min (max 1024 (((List.range' start (fin - start)).map (fun idx =>
          ((((weightScaledRaw ws scale_weights).zip upds).map
            (fun p : ℤ × List ℤ => p.1 * p.2.getD idx 0)).sum).natAbs)).foldl max 0 + 16)) cap,
        ((List.range' start (fin - start)).map (fun idx =>
          ((((weightScaledRaw ws scale_weights).zip upds).map
            (fun p : ℤ × List ℤ => p.1 * p.2.getD idx 0)).sum).natAbs)).foldl max 0,
        decide (cap < max 1024 (((List.range' start (fin - start)).map (fun idx =>
          ((((weightScaledRaw ws scale_weights).zip upds).map
            (fun p : ℤ × List ℤ => p.1 * p.2.getD idx 0)).sum).natAbs)).foldl max 0 + 16))) := by
    unfold compute_chunk_bound_py
    rw [hM, Nat.max_comm]
  refine ⟨hcb, ?_⟩
  intro hhit
  unfold solve_chunk
  dsimp only
  rw [hcb]
  rw [if_pos (by simpa using hhit)]

/-- Witness for C5: one weight 1, update `[5000]`, cap 100: the required
bound `max 1024 5016` exceeds the cap and `solve_chunk` errors naming the
range `[0:1]`. -/
theorem C5_chunk_bound_and_cap_failure_witness :
    (compute_chunk_bound_py (weightScaledRaw [(1 : ℚ)] 1) [[(5000 : ℤ)]] 100 0 1 =
      (min (max 1024 (((List.range' 0 (1 - 0)).map (fun idx =>
          ((((weightScaledRaw [(1 : ℚ)] 1).zip [[(5000 : ℤ)]]).map
            (fun p : ℤ × List ℤ => p.1 * p.2.getD idx 0)).sum).natAbs)).foldl max 0 + 16)) 100,
        ((List.range' 0 (1 - 0)).map (fun idx =>
          ((((weightScaledRaw [(1 : ℚ)] 1).zip [[(5000 : ℤ)]]).map
            (fun p : ℤ × List ℤ => p.1 * p.2.getD idx 0)).sum).natAbs)).foldl max 0,
        decide (100 < max 1024 (((List.range' 0 (1 - 0)).map (fun idx =>
          ((((weightScaledRaw [(1 : ℚ)] 1).zip [[(5000 : ℤ)]]).map
            (fun p : ℤ × List ℤ => p.1 * p.2.getD idx 0)).sum).natAbs)).foldl max 0 + 16)))) ∧
    (100 < max 1024 (((List.range' 0 (1 - 0)).map (fun idx =>
        ((((weightScaledRaw [(1 : ℚ)] 1).zip [[(5000 : ℤ)]]).map
          (fun p : ℤ × List ℤ => p.1 * p.2.getD idx 0)).sum).natAbs)).foldl max 0 + 16) →
      solve_chunk coordsVal 0 1 0 [[G]] [(1 : ℚ)] [[(5000 : ℤ)]] 1 100 0 1 =
        Except.error ("Required BSGS bound " ++
          toString (((List.range' 0 (1 - 0)).map (fun idx =>
            ((((weightScaledRaw [(1 : ℚ)] 1).zip [[(5000 : ℤ)]]).map
              (fun p : ℤ × List ℤ => p.1 * p.2.getD idx 0)).sum).natAbs)).foldl max 0 + 16) ++
          " exceeds max_chunk_bound_cap " ++ toString (100 : ℕ) ++
          " for chunk [" ++ toString (0 : ℕ) ++ ":" ++ toString (1 : ℕ) ++ "]. " ++
          "Either increase max_chunk_bound_cap, reduce chunk_size, or quantize/clip updates.")) ∧
    (100 : ℕ) < max 1024 (((List.range' 0 (1 - 0)).map (fun idx =>
        ((((weightScaledRaw [(1 : ℚ)] 1).zip [[(5000 : ℤ)]]).map
          (fun p : ℤ × List ℤ => p.1 * p.2.getD idx 0)).sum).natAbs)).foldl max 0 + 16) :=
  ⟨(C5_chunk_bound_and_cap_failure coordsVal 0 1 0 [[G]] [(1 : ℚ)] [[(5000 : ℤ)]] 1 100 0 1).1,
    (C5_chunk_bound_and_cap_failure coordsVal 0 1 0 [[G]] [(1 : ℚ)] [[(5000 : ℤ)]] 1 100 0 1).2,
    lt_of_lt_of_le (by norm_num) (le_max_left 1024 _)⟩

section ChunkedRefinement

variable (coordsOf : Point → ℕ × ℕ)

theorem getD_slice {α : Type} (l : List α) (d : α) (s n k : ℕ) (h : k < n) :
    ((l.drop s).take n).getD k d = l.getD (s + k) d := by
  simp only [List.getD_eq_getElem?_getD]
  rw [List.getElem?_take_of_lt h, List.getElem?_drop]

theorem aggAt_slice (cts : List (List Point)) (wmod : List ℕ) (s n k : ℕ) (h : k < n) :
    aggAt (cts.map (fun miner => (miner.drop s).take n)) wmod k = aggAt cts wmod (s + k) := by
  rw [aggAt_eq_sum, aggAt_eq_sum, List.zip_map_left, List.map_map]
  apply congrArg
  apply List.map_congr_left
  intro p _
  cases p with
  | mk a b =>
    simp only [Function.comp_apply, Prod.map, id_eq]
    rw [getD_slice a 0 s n k h]

theorem aggIsNone_slice (cts : List (List Point)) (wmod : List ℕ) (s n k : ℕ) (h : k < n) :
    aggIsNone (cts.map (fun miner => (miner.drop s).take n)) wmod k =
      aggIsNone cts wmod (s + k) := by
  unfold aggIsNone
  rw [List.zip_map_left, List.all_map]
  have hfun : ((fun p : List Point × ℕ => decide (p.1.getD k 0 = 0)) ∘
      Prod.map (fun miner => (miner.drop s).take n) id) =
      (fun p : List Point × ℕ => decide (p.1.getD (s + k) 0 = 0)) := by
    funext p
    cases p with
    | mk a b =>
      simp only [Function.comp_apply, Prod.map, id_eq]
      exact decide_eq_decide.mpr (by rw [getD_slice a 0 s n k h])
  rw [hfun]

theorem EStarAt_slice (sk_FE sk_A : ℕ) (pk_TP : Point) (cts : List (List Point))
    (ws : List ℚ) (scale_weights : ℤ) (s n k : ℕ) (h : k < n) :
    EStarAt sk_FE sk_A pk_TP (cts.map (fun miner => (miner.drop s).take n)) ws scale_weights k =
      EStarAt sk_FE sk_A pk_TP cts ws scale_weights (s + k) := by
  unfold EStarAt
  rw [aggAt_slice cts (weightScaledMod ws scale_weights) s n k h,
    aggIsNone_slice cts (weightScaledMod ws scale_weights) s n k h]

theorem chunkRanges_spec {L cs : ℕ} (hcs : 0 < cs) {c : ℕ × ℕ}
    (hc : c ∈ chunkRanges L cs) : c.1 < L ∧ c.2 = min L (c.1 + cs) := by
  unfold chunkRanges at hc
  rcases List.mem_map.mp hc with ⟨t, ht, hct⟩
  have htT := List.mem_range.mp ht
  subst hct
  refine ⟨?_, rfl⟩
  have h1 := Nat.div_add_mod (L + cs - 1) cs
  have h2 := Nat.mod_lt (L + cs - 1) hcs
  have h3 : t + 1 ≤ (L + cs - 1) / cs := htT
  have h4 : (t + 1) * cs ≤ ((L + cs - 1) / cs) * cs := Nat.mul_le_mul_right cs h3
  have h5 : ((L + cs - 1) / cs) * cs = cs * ((L + cs - 1) / cs) := Nat.mul_comm _ _
  have h6 : (t + 1) * cs = t * cs + cs := by rw [Nat.add_mul, Nat.one_mul]
  omega

theorem chunk_flatten_aux (L cs : ℕ) :
    ∀ T : ℕ,
      ((List.range T).map
        (fun t => List.range' (t * cs) (min L (t * cs + cs) - t * cs))).flatten =
        List.range' 0 (min L (T * cs)) := by
  intro T
  induction T with
  | zero => simp
  | succ T ih =>
    rw [List.range_succ, List.map_append, List.flatten_append, ih]
    simp only [List.map_cons, List.map_nil, List.flatten_cons, List.flatten_nil,
      List.append_nil]
    have hsucc : (T + 1) * cs = T * cs + cs := by rw [Nat.add_mul, Nat.one_mul]
    rcases le_or_lt L (T * cs) with hle | hlt
    · have h1 : min L (T * cs) = L := min_eq_left hle
      have h2 : min L (T * cs + cs) - T * cs = 0 := by omega
      have h3 : min L ((T + 1) * cs) = L := by rw [hsucc]; omega
      rw [h1, h2, h3]
      simp
    · have h1 : min L (T * cs) = T * cs := min_eq_right (by omega)
      rw [h1]
      have h5 := List.range'_append_1 0 (T * cs) (min L (T * cs + cs) - T * cs)
      rw [Nat.zero_add] at h5
      rw [h5]
      congr 1
      rw [hsucc]
      omega

theorem chunkRanges_flatten (L cs : ℕ) (hcs : 0 < cs) :
    ((chunkRanges L cs).map (fun c => List.range' c.1 (c.2 - c.1))).flatten =
      List.range L := by
  unfold chunkRanges
  rw [List.map_map]
  have hstep : ((List.range ((L + cs - 1) / cs)).map
      ((fun c : ℕ × ℕ => List.range' c.1 (c.2 - c.1)) ∘
        (fun t => (t * cs, min L (t * cs + cs))))) =
      ((List.range ((L + cs - 1) / cs)).map
        (fun t => List.range' (t * cs) (min L (t * cs + cs) - t * cs))) := by
    apply List.map_congr_left
    intro t _
    rfl
  rw [hstep, chunk_flatten_aux L cs ((L + cs - 1) / cs)]
  have h1 := Nat.div_add_mod (L + cs - 1) cs
  have h2 := Nat.mod_lt (L + cs - 1) hcs
  have h5 : ((L + cs - 1) / cs) * cs = cs * ((L + cs - 1) / cs) := Nat.mul_comm _ _
  have h6 : min L (((L + cs - 1) / cs) * cs) = L := by omega
  rw [h6, List.range_eq_range']

theorem compute_chunk_bound_le_cap (w : List ℤ) (u : List (List ℤ)) (cap s f : ℕ) :
    (compute_chunk_bound_py w u cap s f).1 ≤ cap := by
  unfold compute_chunk_bound_py
  exact min_le_right _ _

end ChunkedRefinement

section ChunkedRefinement2

variable (coordsOf : Point → ℕ × ℕ)

theorem decrypt_aggregate_ok
    (hinj : ∀ a b : Point, _point_key coordsOf a = _point_key coordsOf b → a = b)
    {sk_FE sk_A : ℕ} {pk_TP : Point} {cts : List (List Point)} {ws : List ℚ}
    {scale_weights : ℤ} {bound : ℕ} {S : ℕ → ℤ}
    (hrep : ∀ k < (cts.headD []).length,
      EStarAt sk_FE sk_A pk_TP cts ws scale_weights k = ((S k : ℤ) : Point))
    (hb : ∀ k < (cts.headD []).length, (S k).natAbs < bound) (hb64 : bound ≤ 2 ^ 64) :
    decrypt_aggregate coordsOf sk_FE sk_A pk_TP cts ws scale_weights bound none =
      Except.ok ((List.range (cts.headD []).length).map S) := by
  unfold decrypt_aggregate
  apply exceptMapList_ok
  intro k hk
  have hkL := List.mem_range.mp hk
  exact decrypt_param_recovers coordsOf hinj (hrep k hkL) (hb k hkL) hb64

theorem solve_chunk_ok
    (hinj : ∀ a b : Point, _point_key coordsOf a = _point_key coordsOf b → a = b)
    {sk_FE sk_A : ℕ} {pk_TP : Point} {h0 : List Point} {t : List (List Point)}
    {ws : List ℚ} {upds : List (List ℤ)} {scale_weights : ℤ} {cap : ℕ}
    {S : ℕ → ℤ} {c : ℕ × ℕ}
    (hc2 : c.2 ≤ h0.length)
    (hnc : (compute_chunk_bound_py (weightScaledRaw ws scale_weights) upds cap c.1 c.2).2.2 =
      false)
    (hcap64 : cap ≤ 2 ^ 64)
    (hrep : ∀ k, c.1 ≤ k → k < c.2 →
      EStarAt sk_FE sk_A pk_TP (h0 :: t) ws scale_weights k = ((S k : ℤ) : Point))
    (hb : ∀ k, c.1 ≤ k → k < c.2 → (S k).natAbs <
      (compute_chunk_bound_py (weightScaledRaw ws scale_weights) upds cap c.1 c.2).1) :
    solve_chunk coordsOf sk_FE sk_A pk_TP (h0 :: t) ws upds scale_weights cap c.1 c.2 =
      Except.ok ((List.range' c.1 (c.2 - c.1)).map S) := by
  unfold solve_chunk
  dsimp only
  rw [if_neg (by simp [hnc])]
  have hlen : ((((h0 :: t)).map
      (fun miner => (miner.drop c.1).take (c.2 - c.1))).headD []).length = c.2 - c.1 := by
    simp only [List.map_cons, List.headD_cons, List.length_take, List.length_drop]
    omega
  unfold decrypt_aggregate
  rw [hlen, List.range'_eq_map_range, List.map_map]
  apply exceptMapList_ok
  intro k' hk'
  have hk'n := List.mem_range.mp hk'
  have hE := EStarAt_slice sk_FE sk_A pk_TP (h0 :: t) ws scale_weights c.1 (c.2 - c.1) k' hk'n
  rw [hrep (c.1 + k') (by omega) (by omega)] at hE
  have hbk := hb (c.1 + k') (by omega) (by omega)
  have hble : (compute_chunk_bound_py (weightScaledRaw ws scale_weights) upds cap c.1 c.2).1 ≤
      2 ^ 64 :=
    le_trans (compute_chunk_bound_le_cap _ _ _ _ _) hcap64
  simp only [Function.comp_apply]
  exact decrypt_param_recovers coordsOf hinj hE hbk hble

end ChunkedRefinement2

/-- C4: for the same keys, ciphertexts, weights, and weight scale — with
both the single-call search bound and the chunk cap at most `2 ^ 52` (the
range on which the modelled `ceil_sqrt` is the source's float computation
and recovered entries fit `np.int64`), and with every update row covering
the parameter vector (on a shorter row the source's chunk-bound loop
raises an uncaught `IndexError` that the plain path does not) — whenever
the per-index decrypted points represent integers `S k` whose magnitudes
lie strictly below the single-call search bound and below every per-chunk
bound (with no chunk hitting the cap), `decrypt_aggregate_chunked` returns
the same vector as `decrypt_aggregate` — the per-chunk results are
reassembled in positional correspondence with the original parameter
vector — and both succeed with the vector `[S 0, …, S (L-1)]`. -/
theorem C4_chunked_refines_plain (coordsOf : Point → ℕ × ℕ)
    (sk_FE sk_A : ℕ) (pk_TP : Point) (cts : List (List Point)) (ws : List ℚ)
    (upds : List (List ℤ)) (scale_weights : ℤ) (chunk_size cap bsgs_bound : ℕ) (S : ℕ → ℤ)
    (hinj : ∀ a b : Point, _point_key coordsOf a = _point_key coordsOf b → a = b)
    (hcs : 0 < chunk_size) (hcap52 : cap ≤ 2 ^ 52) (hb52 : bsgs_bound ≤ 2 ^ 52)
    (hrows : ∀ u ∈ upds, (cts.headD []).length ≤ u.length)
    (hrep : ∀ k < (cts.headD []).length,
      EStarAt sk_FE sk_A pk_TP cts ws scale_weights k = ((S k : ℤ) : Point))
    (hplain : ∀ k < (cts.headD []).length, (S k).natAbs < bsgs_bound)
    (hnc : ∀ c ∈ chunkRanges (cts.headD []).length chunk_size,
      (compute_chunk_bound_py (weightScaledRaw ws scale_weights) upds cap c.1 c.2).2.2 = false)
    (hcb : ∀ c ∈ chunkRanges (cts.headD []).length chunk_size, ∀ k, c.1 ≤ k → k < c.2 →
      (S k).natAbs <
        (compute_chunk_bound_py (weightScaledRaw ws scale_weights) upds cap c.1 c.2).1) :
    decrypt_aggregate_chunked coordsOf sk_FE sk_A pk_TP cts ws upds scale_weights
        chunk_size cap =
      decrypt_aggregate coordsOf sk_FE sk_A pk_TP cts ws scale_weights bsgs_bound none ∧
    decrypt_aggregate coordsOf sk_FE sk_A pk_TP cts ws scale_weights bsgs_bound none =
      Except.ok ((List.range (cts.headD []).length).map S) := by
  have hcap64 : cap ≤ 2 ^ 64 := le_trans hcap52 (by norm_num)
  have hplainok := decrypt_aggregate_ok coordsOf hinj hrep hplain (le_trans hb52 (by norm_num))
  refine ⟨?_, hplainok⟩
  rw [hplainok]
  unfold decrypt_aggregate_chunked
  dsimp only
  cases cts with
  | nil =>
    have hT : ((0 : ℕ) + chunk_size - 1) / chunk_size = 0 :=
      Nat.div_eq_of_lt (by omega)
    simp only [List.headD_nil, List.length_nil]
    unfold chunkRanges
    rw [hT]
    simp [exceptMapList]
  | cons h0 t =>
    have hmap : exceptMapList
        (fun c : ℕ × ℕ => solve_chunk coordsOf sk_FE sk_A pk_TP (h0 :: t) ws upds
          scale_weights cap c.1 c.2)
        (chunkRanges ((h0 :: t).headD []).length chunk_size) =
        Except.ok ((chunkRanges ((h0 :: t).headD []).length chunk_size).map
          (fun c => (List.range' c.1 (c.2 - c.1)).map S)) := by
      apply exceptMapList_ok
      intro c hc
      obtain ⟨hc1, hc2⟩ := chunkRanges_spec hcs hc
      have hc2L : c.2 ≤ ((h0 :: t).headD []).length := by omega
      refine solve_chunk_ok coordsOf hinj ?_ (hnc c hc) hcap64 ?_ (hcb c hc)
      · simpa using hc2L
      · intro k hk1 hk2
        exact hrep k (by omega)
    rw [hmap]
    have hfl := chunkRanges_flatten ((h0 :: t).headD []).length chunk_size hcs
    show Except.ok _ = _
    have hcomp : (fun c : ℕ × ℕ => List.map S (List.range' c.1 (c.2 - c.1))) =
        (List.map S ∘ fun c : ℕ × ℕ => List.range' c.1 (c.2 - c.1)) := rfl
    rw [hcomp, ← List.map_map, ← List.map_flatten, hfl]

section C4WitnessSetup

theorem chunk_bound_witness_eval :
    compute_chunk_bound_py (weightScaledRaw [(1 : ℚ)] 1) [[(5 : ℤ)]] (2 ^ 28) 0 1 =
      (1024, 5, false) := by
  unfold compute_chunk_bound_py SSignedAt weightScaledRaw
  norm_num [pyRound_one]

theorem chunkRanges_witness_eval : chunkRanges 1 256 = [(0, 1)] := by decide

end C4WitnessSetup

/-- Witness for C4: one ciphertext point `5 * G`, update `[5]`, chunk size
256, cap `2 ^ 28`, plain bound 1024: chunked and plain decryption agree
and both return `[5]`. -/
theorem C4_chunked_refines_plain_witness :
    decrypt_aggregate_chunked coordsVal 0 1 0 [[((5 : ℕ) : Point)]] [(1 : ℚ)] [[(5 : ℤ)]] 1
        256 (2 ^ 28) =
      decrypt_aggregate coordsVal 0 1 0 [[((5 : ℕ) : Point)]] [(1 : ℚ)] 1 1024 none ∧
    decrypt_aggregate coordsVal 0 1 0 [[((5 : ℕ) : Point)]] [(1 : ℚ)] 1 1024 none =
      Except.ok ((List.range ((([[((5 : ℕ) : Point)]] : List (List Point)).headD []).length)).map
        (fun _ => (5 : ℤ))) := by
  have hL : (([[((5 : ℕ) : Point)]] : List (List Point)).headD []).length = 1 := rfl
  refine C4_chunked_refines_plain coordsVal 0 1 0 [[((5 : ℕ) : Point)]] [(1 : ℚ)] [[(5 : ℤ)]]
    1 256 (2 ^ 28) 1024 (fun _ => (5 : ℤ)) coordsVal_inj (by decide) (by decide) (by decide)
    (by decide) ?_ ?_ ?_ ?_
  · intro k hk
    rw [hL] at hk
    have hk0 : k = 0 := by omega
    subst hk0
    rw [estar_single_eval]
    norm_num
  · intro k _
    exact (by decide : (5 : ℤ).natAbs < 1024)
  · intro c hc
    rw [hL, chunkRanges_witness_eval] at hc
    have : c = (0, 1) := by simpa using hc
    subst this
    rw [chunk_bound_witness_eval]
  · intro c hc k _ _
    rw [hL, chunkRanges_witness_eval] at hc
    have : c = (0, 1) := by simpa using hc
    subst this
    rw [chunk_bound_witness_eval]
    exact (by decide : (5 : ℤ).natAbs < 1024)

section DGCLemmas

theorem sorted_lt_of_sorted_le_nodup {l : List ℕ}
    (hs : List.Sorted (· ≤ ·) l) (hn : l.Nodup) : List.Sorted (· < ·) l :=
  (hs.and hn).imp (fun h => lt_of_le_of_ne h.1 h.2)

theorem sorted_lt_insertionSort_of_nodup {l : List ℕ} (hn : l.Nodup) :
    List.Sorted (· < ·) (List.insertionSort (· ≤ ·) l) :=
  sorted_lt_of_sorted_le_nodup (List.sorted_insertionSort (· ≤ ·) l)
    ((List.perm_insertionSort (· ≤ ·) l).nodup_iff.mpr hn)

theorem le_foldl_max (l : List ℚ) : ∀ a : ℚ, a ≤ l.foldl max a := by
  induction l with
  | nil => intro a; exact le_refl a
  | cons x l ih =>
    intro a
    calc a ≤ max a x := le_max_left a x
    _ ≤ (x :: l).foldl max a := by simpa using ih (max a x)

theorem maxabs_nonneg (c : Prop) [Decidable c] (l : List ℚ) :
    0 ≤ (if c then l.foldl max 0 else 1) := by
  split
  · exact le_foldl_max l 0
  · norm_num

theorem scale_pos (max_int : ℕ) (hmax : 1 ≤ max_int) (MA : ℚ) (h0 : 0 ≤ MA) :
    0 < (if MA = 0 then 1 else MA / (max_int : ℚ)) := by
  split
  · norm_num
  · rename_i hne
    exact div_pos (lt_of_le_of_ne h0 (Ne.symm hne)) (by exact_mod_cast hmax)

end DGCLemmas

/-- C8: for every input vector (and every compressor state), the triple
`(indices, values, scale)` returned by `compress_and_quantize` satisfies:
`indices` is a strictly increasing sequence of natural numbers,
`len(indices) = len(values)`, every `|value| ≤ max_int`, and `scale` is
positive — under the constructor's contract `max_int ≥ 1`. -/
theorem C8_compress_output_invariant (tau : ℚ) (max_int min_nonzeros : ℕ)
    (residual : Option (List ℕ × List ℚ)) (raw_gradient : List ℚ)
    (hmax : 1 ≤ max_int) :
    List.Sorted (· < ·)
      (compress_and_quantize tau max_int min_nonzeros residual raw_gradient).1.1 ∧
    (compress_and_quantize tau max_int min_nonzeros residual raw_gradient).1.1.length =
      (compress_and_quantize tau max_int min_nonzeros residual raw_gradient).1.2.1.length ∧
    (∀ v ∈ (compress_and_quantize tau max_int min_nonzeros residual raw_gradient).1.2.1,
      |v| ≤ (max_int : ℤ)) ∧
    0 < (compress_and_quantize tau max_int min_nonzeros residual raw_gradient).1.2.2 := by
  unfold compress_and_quantize
  dsimp only
  split
  · refine ⟨List.sorted_nil, rfl, ?_, by norm_num⟩
    intro v hv
    exact absurd hv (List.not_mem_nil v)
  · dsimp only
    refine ⟨?_, by simp, ?_, ?_⟩
    · -- strictly increasing indices
      apply sorted_lt_insertionSort_of_nodup
      split
      · exact List.Nodup.sublist (List.take_sublist _ _)
          ((List.perm_insertionSort _ _).nodup_iff.mpr
            (List.Nodup.filter _ (List.nodup_range _)))
      · exact List.Nodup.filter _ (List.nodup_range _)
    · -- clipped values are bounded
      intro v hv
      rcases List.mem_map.mp hv with ⟨x, _, rfl⟩
      have h0 : (0 : ℤ) ≤ (max_int : ℤ) := by positivity
      rw [abs_le]
      exact ⟨le_min (by omega) (le_max_left _ _), min_le_left _ _⟩
    · -- positive scale
      exact scale_pos max_int hmax _ (maxabs_nonneg _ _)

/-- Witness for C8 on the vector `[1/2, 0, -3]` with `tau = 9/10`,
`max_int = 1023`, fresh residual state. -/
theorem C8_compress_output_invariant_witness :
    List.Sorted (· < ·)
      (compress_and_quantize (9/10) 1023 1 none [1/2, 0, -3]).1.1 ∧
    (compress_and_quantize (9/10) 1023 1 none [1/2, 0, -3]).1.1.length =
      (compress_and_quantize (9/10) 1023 1 none [1/2, 0, -3]).1.2.1.length ∧
    (∀ v ∈ (compress_and_quantize (9/10) 1023 1 none [1/2, 0, -3]).1.2.1,
      |v| ≤ (1023 : ℤ)) ∧
    0 < (compress_and_quantize (9/10) 1023 1 none [1/2, 0, -3]).1.2.2 :=
  C8_compress_output_invariant (9/10) 1023 1 none [1/2, 0, -3] (by decide)


section CodecBytes

theorem int_to_bytes_length (x w : ℕ) : (int_to_bytes x w).length = w := by
  unfold int_to_bytes
  simp

theorem int_to_bytes_lt (x w : ℕ) : ∀ b ∈ int_to_bytes x w, b < 256 := by
  intro b hb
  unfold int_to_bytes at hb
  rcases List.mem_map.mp hb with ⟨i, _, rfl⟩
  exact Nat.mod_lt _ (by norm_num)

theorem int_to_bytes_succ (x w : ℕ) :
    int_to_bytes x (w + 1) = (x / 256 ^ w % 256) :: int_to_bytes x w := by
  unfold int_to_bytes
  rw [List.range_succ_eq_map, List.map_cons, List.map_map]
  have h1 : w + 1 - 1 - 0 = w := by omega
  rw [h1]
  congr 1
  apply List.map_congr_left
  intro i _
  simp only [Function.comp_apply, Nat.succ_eq_add_one]
  have h2 : w + 1 - 1 - (i + 1) = w - 1 - i := by omega
  rw [h2]

theorem int_to_bytes_mod (x w : ℕ) : int_to_bytes (x % 256 ^ w) w = int_to_bytes x w := by
  unfold int_to_bytes
  apply List.map_congr_left
  intro i hi
  have hiw : i < w := List.mem_range.mp hi
  have he : 256 ^ (w - 1 - i + 1) = 256 ^ (w - 1 - i) * 256 := by rw [Nat.pow_succ]
  rw [← Nat.mod_mul_right_div_self (x % 256 ^ w) (256 ^ (w - 1 - i)) 256,
    ← Nat.mod_mul_right_div_self x (256 ^ (w - 1 - i)) 256, ← he]
  congr 1
  rw [Nat.mod_mod_of_dvd]
  exact Nat.pow_dvd_pow 256 (by omega)

theorem foldl_decode_int_to_bytes :
    ∀ (w x a : ℕ), x < 256 ^ w →
      (int_to_bytes x w).foldl (fun acc b => 256 * acc + b) a = a * 256 ^ w + x := by
  intro w
  induction w with
  | zero =>
    intro x a hx
    have hx0 : x = 0 := by
      have : (256 : ℕ) ^ 0 = 1 := pow_zero 256
      omega
    subst hx0
    simp [int_to_bytes]
  | succ w ih =>
    intro x a hx
    rw [int_to_bytes_succ, List.foldl_cons, ← int_to_bytes_mod,
      ih (x % 256 ^ w) _ (Nat.mod_lt _ (by positivity))]
    have hdig : x / 256 ^ w % 256 = x / 256 ^ w := by
      apply Nat.mod_eq_of_lt
      apply Nat.div_lt_of_lt_mul
      rw [← Nat.pow_succ]
      exact hx
    rw [hdig]
    have hdm := Nat.div_add_mod x (256 ^ w)
    calc (256 * a + x / 256 ^ w) * 256 ^ w + x % 256 ^ w
        = a * (256 ^ w * 256) + (256 ^ w * (x / 256 ^ w) + x % 256 ^ w) := by ring
    _ = a * 256 ^ (w + 1) + x := by rw [hdm, Nat.pow_succ]

theorem bytesToNat_int_to_bytes (x w : ℕ) (h : x < 256 ^ w) :
    bytesToNat (int_to_bytes x w) = x := by
  unfold bytesToNat
  have hf := foldl_decode_int_to_bytes w x 0 h
  simpa using hf

theorem readBE_append (pre post : List ℕ) (w : ℕ) (h : w ≤ post.length) :
    readBE (pre ++ post) pre.length w = some (bytesToNat (post.take w)) := by
  unfold readBE
  rw [if_pos (by simp only [List.length_append]; omega), List.drop_left]

theorem readBE_append_off (pre post : List ℕ) (off w : ℕ) (h : off + w ≤ post.length) :
    readBE (pre ++ post) (pre.length + off) w = readBE post off w := by
  unfold readBE
  rw [if_pos (by simp only [List.length_append]; omega), if_pos h, List.drop_append]

end CodecBytes

section HexLemmas

theorem hexVal_lt {c : Char} {v : ℕ} (h : hexVal c = some v) : v < 16 := by
  unfold hexVal at h
  split_ifs at h with h1 h2 h3 <;> injection h with h <;> omega

theorem hexChar_hexVal {c : Char} {v : ℕ} (h : hexVal c = some v)
    (hl : isLowerHexChar c) : hexChar v = c := by
  unfold hexVal at h
  unfold isLowerHexChar at hl
  unfold hexChar
  split_ifs at h with h1 h2 h3
  · injection h with h
    rw [if_pos (by omega)]
    have hv : 48 + v = c.toNat := by omega
    rw [hv, Char.ofNat_toNat]
  · injection h with h
    rw [if_neg (by omega)]
    have hv : 87 + v = c.toNat := by omega
    rw [hv, Char.ofNat_toNat]
  · exact absurd hl (by omega)

theorem hexVal_hexChar {v : ℕ} (h : v < 16) : hexVal (hexChar v) = some v := by
  interval_cases v <;> decide

theorem isLowerHexChar_hexChar {v : ℕ} (h : v < 16) : isLowerHexChar (hexChar v) := by
  interval_cases v <;> decide

theorem fromHex_length : ∀ (l : List Char) (bs : List ℕ), fromHex l = some bs →
    l.length = 2 * bs.length
  | [], bs, h => by
    simp only [fromHex, Option.some.injEq] at h
    subst h
    rfl
  | [_], bs, h => by
    simp only [fromHex] at h
    exact Option.noConfusion h
  | c1 :: c2 :: rest, bs, h => by
    simp only [fromHex, Option.bind_eq_bind, Option.bind_eq_some, Option.pure_def,
      Option.some.injEq] at h
    obtain ⟨hi, hhi, lo, hlo, r, hr, hbs⟩ := h
    subst hbs
    have hrec := fromHex_length rest r hr
    simp only [List.length_cons]
    omega

theorem fromHex_lt : ∀ (l : List Char) (bs : List ℕ), fromHex l = some bs →
    ∀ b ∈ bs, b < 256
  | [], bs, h => by
    simp only [fromHex, Option.some.injEq] at h
    subst h
    intro b hb
    exact absurd hb (List.not_mem_nil b)
  | [_], bs, h => by
    simp only [fromHex] at h
    exact Option.noConfusion h
  | c1 :: c2 :: rest, bs, h => by
    simp only [fromHex, Option.bind_eq_bind, Option.bind_eq_some, Option.pure_def,
      Option.some.injEq] at h
    obtain ⟨hi, hhi, lo, hlo, r, hr, hbs⟩ := h
    subst hbs
    intro b hb
    rcases List.mem_cons.mp hb with rfl | hb
    · have h1 := hexVal_lt hhi
      have h2 := hexVal_lt hlo
      omega
    · exact fromHex_lt rest r hr b hb

theorem byteHex_flatten_fromHex : ∀ (l : List Char) (bs : List ℕ),
    fromHex l = some bs → (∀ c ∈ l, isLowerHexChar c) →
    (bs.map byteHex).flatten = l
  | [], bs, h, _ => by
    simp only [fromHex, Option.some.injEq] at h
    subst h
    rfl
  | [_], bs, h, _ => by
    simp only [fromHex] at h
    exact Option.noConfusion h
  | c1 :: c2 :: rest, bs, h, hl => by
    simp only [fromHex, Option.bind_eq_bind, Option.bind_eq_some, Option.pure_def,
      Option.some.injEq] at h
    obtain ⟨hi, hhi, lo, hlo, r, hr, hbs⟩ := h
    subst hbs
    have hhi16 := hexVal_lt hhi
    have hlo16 := hexVal_lt hlo
    have hdiv : (16 * hi + lo) / 16 = hi := by omega
    have hmod : (16 * hi + lo) % 16 = lo := by omega
    have hc1 : hexChar hi = c1 := hexChar_hexVal hhi (hl c1 (by simp))
    have hc2 : hexChar lo = c2 := hexChar_hexVal hlo (hl c2 (by simp))
    have hrest := byteHex_flatten_fromHex rest r hr (fun c hc => hl c (by simp [hc]))
    simp only [List.map_cons, List.flatten_cons, byteHex, hdiv, hmod, hc1, hc2, hrest,
      List.cons_append, List.nil_append]

theorem hexVal_isSome_of_lower {c : Char} (h : isLowerHexChar c) :
    ∃ v, hexVal c = some v := by
  unfold isLowerHexChar at h
  unfold hexVal
  rcases h with h | h
  · exact ⟨_, if_pos (by omega)⟩
  · rw [if_neg (by omega), if_pos (by omega)]
    exact ⟨_, rfl⟩

theorem fromHex_isSome : ∀ (l : List Char), (∀ c ∈ l, ∃ v, hexVal c = some v) →
    l.length % 2 = 0 → ∃ bs, fromHex l = some bs
  | [], _, _ => ⟨[], rfl⟩
  | [c], _, hlen => by
    simp only [List.length_singleton] at hlen
    exact absurd hlen (by omega)
  | c1 :: c2 :: rest, hl, hlen => by
    obtain ⟨hi, hhi⟩ := hl c1 (by simp)
    obtain ⟨lo, hlo⟩ := hl c2 (by simp)
    have hlen' : rest.length % 2 = 0 := by
      simp only [List.length_cons] at hlen
      omega
    obtain ⟨r, hr⟩ := fromHex_isSome rest (fun c hc => hl c (by simp [hc])) hlen'
    refine ⟨(16 * hi + lo) :: r, ?_⟩
    simp only [fromHex, hhi, hlo, hr, Option.bind_eq_bind, Option.some_bind,
      Option.pure_def]

end HexLemmas

section EntryLemmas

theorem packEntries_length : ∀ (l : List (ℕ × ℤ)) (body : List ℕ),
    packEntries l = some body → body.length = 16 * l.length
  | [], body, h => by
    simp only [packEntries, Option.some.injEq] at h
    subst h
    rfl
  | p :: rest, body, h => by
    simp only [packEntries, Option.bind_eq_bind, Option.bind_eq_some, Option.pure_def,
      Option.some.injEq] at h
    obtain ⟨ib, hib, vb, hvb, rb, hrb, hbody⟩ := h
    subst hbody
    unfold packBE at hib
    unfold packSigned8 at hvb
    split_ifs at hib with h1
    split_ifs at hvb with h2
    injection hib with hib
    injection hvb with hvb
    have hrl := packEntries_length rest rb hrb
    simp only [List.length_append, ← hib, ← hvb, int_to_bytes_length, List.length_cons]
    omega

theorem packEntries_isSome : ∀ (l : List (ℕ × ℤ)),
    (∀ p ∈ l, p.1 < 2 ^ 64 ∧ -(2 ^ 63) ≤ p.2 ∧ p.2 < 2 ^ 63) →
    ∃ body, packEntries l = some body
  | [], _ => ⟨[], rfl⟩
  | p :: rest, h => by
    obtain ⟨h1, h2, h3⟩ := h p (by simp)
    obtain ⟨rb, hrb⟩ := packEntries_isSome rest (fun q hq => h q (by simp [hq]))
    refine ⟨int_to_bytes p.1 8 ++ int_to_bytes ((p.2 % (2 ^ 64 : ℤ)).toNat) 8 ++ rb, ?_⟩
    have hb : (256 : ℕ) ^ 8 = 2 ^ 64 := by norm_num
    simp only [packEntries, packBE, packSigned8, hb, if_pos h1, if_pos (And.intro h2 h3),
      hrb, Option.bind_eq_bind, Option.some_bind, Option.pure_def]

theorem signed_decode (v : ℤ) (h1 : -(2 ^ 63) ≤ v) (h2 : v < 2 ^ 63) :
    (if 2 ^ 63 ≤ (v % (2 ^ 64 : ℤ)).toNat
      then ((v % (2 ^ 64 : ℤ)).toNat : ℤ) - 2 ^ 64
      else ((v % (2 ^ 64 : ℤ)).toNat : ℤ)) = v := by
  split_ifs with hc <;> omega

theorem readEntries_spec : ∀ (l : List (ℕ × ℤ)) (body : List ℕ),
    packEntries l = some body →
    ∀ (pre suffix : List ℕ),
      readEntries (pre ++ (body ++ suffix)) pre.length l.length =
        some (l.map Prod.fst, l.map Prod.snd)
  | [], body, h, pre, suffix => by
    simp only [packEntries, Option.some.injEq] at h
    subst h
    rfl
  | p :: rest, body, h, pre, suffix => by
    simp only [packEntries, Option.bind_eq_bind, Option.bind_eq_some, Option.pure_def,
      Option.some.injEq] at h
    obtain ⟨ib, hib, vb, hvb, rb, hrb, hbody⟩ := h
    subst hbody
    unfold packBE at hib
    unfold packSigned8 at hvb
    split_ifs at hib with h1
    split_ifs at hvb with h2
    injection hib with hib
    injection hvb with hvb
    have hibl : ib.length = 8 := by rw [← hib]; exact int_to_bytes_length _ _
    have hvbl : vb.length = 8 := by rw [← hvb]; exact int_to_bytes_length _ _
    have hb : (256 : ℕ) ^ 8 = 2 ^ 64 := by norm_num
    have hf1 : readBE (pre ++ (ib ++ (vb ++ (rb ++ suffix)))) pre.length 8 = some p.1 := by
      rw [readBE_append pre _ 8 (by simp only [List.length_append]; omega),
        List.take_left' hibl, ← hib, bytesToNat_int_to_bytes _ _ (by omega)]
    have hf2 : readBE (pre ++ (ib ++ (vb ++ (rb ++ suffix)))) (pre.length + 8) 8
        = some ((p.2 % (2 ^ 64 : ℤ)).toNat) := by
      rw [readBE_append_off pre _ 8 8 (by simp only [List.length_append]; omega)]
      have hoff : readBE (ib ++ (vb ++ (rb ++ suffix))) 8 8
          = readBE (ib ++ (vb ++ (rb ++ suffix))) ib.length 8 := by rw [hibl]
      have hlt : (p.2 % (2 ^ 64 : ℤ)).toNat < 256 ^ 8 := by rw [hb]; omega
      rw [hoff, readBE_append ib _ 8 (by simp only [List.length_append]; omega),
        List.take_left' hvbl, ← hvb, bytesToNat_int_to_bytes _ _ hlt]
    have hf3 : readEntries (pre ++ (ib ++ (vb ++ (rb ++ suffix)))) (pre.length + 16)
        rest.length = some (rest.map Prod.fst, rest.map Prod.snd) := by
      have h := readEntries_spec rest rb hrb (pre ++ ib ++ vb) suffix
      rw [show ((pre ++ ib ++ vb).length) = pre.length + 16 from by
        simp only [List.length_append]; omega] at h
      simp only [List.append_assoc] at h
      exact h
    simp only [List.length_cons, List.append_assoc]
    rw [readEntries]
    rw [hf1, hf2, hf3]
    simp only [Option.bind_eq_bind, Option.some_bind, Option.pure_def,
      signed_decode p.2 h2.1 h2.2, List.map_cons]

end EntryLemmas

section LeafRoundtrip

theorem unpack_leaf_concat (A body nonce : List ℕ) (idx : List ℕ) (vals : List ℤ)
    (hA20 : A.length = 20)
    (hbody : packEntries (idx.zip vals) = some body)
    (hlen : idx.length = vals.length)
    (hcnt : idx.length < 256 ^ 4)
    (hnc : nonce.length < 256 ^ 2) :
    unpack_leaf (A ++ int_to_bytes idx.length 4 ++ body ++ int_to_bytes nonce.length 2 ++ nonce)
      = some ('0' :: 'x' :: ((A.map byteHex).flatten), idx, vals, nonce) := by
  set C4 := int_to_bytes idx.length 4 with hC4
  set N2 := int_to_bytes nonce.length 2 with hN2
  have hC4l : C4.length = 4 := int_to_bytes_length _ _
  have hN2l : N2.length = 2 := int_to_bytes_length _ _
  have hzl : (idx.zip vals).length = idx.length := by
    rw [List.length_zip]
    omega
  have hbl : body.length = 16 * idx.length := by
    rw [packEntries_length _ _ hbody, hzl]
  simp only [List.append_assoc]
  set R := A ++ (C4 ++ (body ++ (N2 ++ nonce))) with hR
  have hm : R.take 20 = A := by
    rw [hR]
    exact List.take_left' hA20
  have hu2 : readBE R 20 4 = some idx.length := by
    rw [hR]
    have h1 : readBE (A ++ (C4 ++ (body ++ (N2 ++ nonce)))) 20 4
        = readBE (A ++ (C4 ++ (body ++ (N2 ++ nonce)))) A.length 4 := by rw [hA20]
    rw [h1, readBE_append A (C4 ++ (body ++ (N2 ++ nonce))) 4
        (by simp only [List.length_append]; omega),
      List.take_left' hC4l, hC4, bytesToNat_int_to_bytes _ _ hcnt]
  have hu3 : readEntries R 24 idx.length = some (idx, vals) := by
    have hspec := readEntries_spec (idx.zip vals) body hbody (A ++ C4) (N2 ++ nonce)
    rw [show ((A ++ C4).length) = 24 from by rw [List.length_append, hA20, hC4l],
      hzl, List.map_fst_zip idx vals (le_of_eq hlen),
      List.map_snd_zip idx vals (le_of_eq hlen.symm)] at hspec
    simp only [List.append_assoc] at hspec
    rw [hR]
    exact hspec
  have hu4 : readBE R (24 + 16 * idx.length) 2 = some nonce.length := by
    have h := readBE_append (A ++ C4 ++ body) (N2 ++ nonce) 2
      (by simp only [List.length_append, hN2l]; omega)
    rw [show ((A ++ C4 ++ body).length) = 24 + 16 * idx.length from by
        simp only [List.length_append, hA20, hC4l, hbl]; try omega,
      List.take_left' hN2l, hN2, bytesToNat_int_to_bytes _ _ hnc] at h
    simp only [List.append_assoc] at h
    rw [hR]
    exact h
  have hu5 : (R.drop (24 + 16 * idx.length + 2)).take nonce.length = nonce := by
    have h : ((A ++ C4 ++ body ++ N2) ++ nonce).drop (24 + 16 * idx.length + 2) = nonce :=
      List.drop_left' (by simp only [List.length_append, hA20, hC4l, hbl, hN2l]; try omega)
    simp only [List.append_assoc] at h
    rw [hR, h, List.take_length]
  simp only [unpack_leaf, Option.bind_eq_bind, Option.pure_def]
  rw [hu2]
  simp only [Option.some_bind]
  rw [hu3]
  simp only [Option.some_bind]
  rw [hu4]
  simp only [Option.some_bind]
  rw [hm, hu5]

end LeafRoundtrip

/-- **C7** (amended): the leaf codec round-trips for every *canonical* miner
address — a lowercase `0x`-prefixed 40-hex-digit string — together with
index/value sequences of equal length within the documented widths
(indices unsigned 8-byte, values signed 8-byte), a count below `2^32` and a
nonce of fewer than `2^16` bytes: `unpack_leaf (pack_leaf addr idx vals n)`
returns `(addr, idx, vals, n)` exactly.  The claim's original universal
quantification over *every* miner address is refuted by
`C7_leaf_roundtrip_counterexample` below (uppercase hex does not
round-trip, since `unpack_leaf` re-emits lowercase hex). -/
theorem C7_leaf_roundtrip_canonical (h : List Char) (idx : List ℕ) (vals : List ℤ)
    (nonce : List ℕ)
    (hhex : ∀ c ∈ h, isLowerHexChar c) (hlen40 : h.length = 40)
    (hlen : idx.length = vals.length)
    (hidx : ∀ i ∈ idx, i < 2 ^ 64)
    (hvals : ∀ v ∈ vals, -(2 ^ 63) ≤ v ∧ v < 2 ^ 63)
    (hcnt : idx.length < 2 ^ 32)
    (hnonce : nonce.length < 2 ^ 16) :
    (pack_leaf ('0' :: 'x' :: h) idx vals nonce).bind unpack_leaf
      = some ('0' :: 'x' :: h, idx, vals, nonce) := by
  obtain ⟨A, hA⟩ := fromHex_isSome h (fun c hc => hexVal_isSome_of_lower (hhex c hc)) (by omega)
  have hA20 : A.length = 20 := by
    have := fromHex_length h A hA
    omega
  have haddr0 : addrBytesOf ('0' :: 'x' :: h)
      = fromHex (List.replicate (40 - h.length) '0' ++ h) := rfl
  rw [hlen40] at haddr0
  simp only [Nat.sub_self, List.replicate_zero, List.nil_append] at haddr0
  have haddr : addrBytesOf ('0' :: 'x' :: h) = some A := by rw [haddr0, hA]
  have hcnt' : idx.length < 256 ^ 4 := by
    have h4 : (256 : ℕ) ^ 4 = 2 ^ 32 := by norm_num
    omega
  have hnc' : nonce.length < 256 ^ 2 := by
    have h2 : (256 : ℕ) ^ 2 = 2 ^ 16 := by norm_num
    omega
  have hzip : ∀ p ∈ idx.zip vals, p.1 < 2 ^ 64 ∧ -(2 ^ 63) ≤ p.2 ∧ p.2 < 2 ^ 63 := by
    intro p hp
    rcases p with ⟨i, v⟩
    obtain ⟨h1, h2⟩ := List.of_mem_zip hp
    exact ⟨hidx i h1, (hvals v h2).1, (hvals v h2).2⟩
  obtain ⟨body, hbody⟩ := packEntries_isSome (idx.zip vals) hzip
  have hc4 : packBE 4 idx.length = some (int_to_bytes idx.length 4) := by
    unfold packBE
    rw [if_pos hcnt']
  have hn2 : packBE 2 nonce.length = some (int_to_bytes nonce.length 2) := by
    unfold packBE
    rw [if_pos hnc']
  have hpack : pack_leaf ('0' :: 'x' :: h) idx vals nonce
      = some (A ++ int_to_bytes idx.length 4 ++ body ++ int_to_bytes nonce.length 2
          ++ nonce) := by
    simp only [pack_leaf, haddr, hc4, hbody, hn2, Option.bind_eq_bind, Option.some_bind,
      Option.pure_def]
  rw [hpack]
  simp only [Option.some_bind]
  rw [unpack_leaf_concat A body nonce idx vals hA20 hbody hlen hcnt' hnc',
    byteHex_flatten_fromHex h A hA hhex]

/-- **C7** (counterexample to the claim as stated): the all-uppercase miner
address `0xAAA…A` is a valid input to `pack_leaf` (hex with a `0x` prefix),
yet `unpack_leaf ∘ pack_leaf` does not return it: the address comes back
lowercased, so the round-trip does *not* hold for every miner address. -/
theorem C7_leaf_roundtrip_counterexample :
    ¬ ((pack_leaf ('0' :: 'x' :: List.replicate 40 'A') [] [] []).bind unpack_leaf
      = some ('0' :: 'x' :: List.replicate 40 'A', [], [], [])) := by decide

theorem C7_leaf_roundtrip_canonical_witness :
    (pack_leaf ('0' :: 'x' :: List.replicate 40 'a') [3] [-5] [110]).bind unpack_leaf
      = some ('0' :: 'x' :: List.replicate 40 'a', [3], [-5], [110]) :=
  C7_leaf_roundtrip_canonical (List.replicate 40 'a') [3] [-5] [110]
    (by decide) (by decide) (by decide) (by decide) (by decide) (by decide) (by decide)

section AddressLemmas

theorem packEntries_lt : ∀ (l : List (ℕ × ℤ)) (body : List ℕ),
    packEntries l = some body → ∀ b ∈ body, b < 256
  | [], body, h => by
    simp only [packEntries, Option.some.injEq] at h
    subst h
    intro b hb
    exact absurd hb (List.not_mem_nil b)
  | p :: rest, body, h => by
    simp only [packEntries, Option.bind_eq_bind, Option.bind_eq_some, Option.pure_def,
      Option.some.injEq] at h
    obtain ⟨ib, hib, vb, hvb, rb, hrb, hbody⟩ := h
    subst hbody
    unfold packBE at hib
    unfold packSigned8 at hvb
    split_ifs at hib with h1
    split_ifs at hvb with h2
    injection hib with hib
    injection hvb with hvb
    intro b hb
    simp only [List.mem_append] at hb
    rcases hb with (hb | hb) | hb
    · rw [← hib] at hb
      exact int_to_bytes_lt _ _ b hb
    · rw [← hvb] at hb
      exact int_to_bytes_lt _ _ b hb
    · exact packEntries_lt rest rb hrb b hb

theorem pack_leaf_bytes_lt (a : List Char) (idx : List ℕ) (vals : List ℤ)
    (nonce raw : List ℕ) (h : pack_leaf a idx vals nonce = some raw)
    (hn : ∀ b ∈ nonce, b < 256) : ∀ b ∈ raw, b < 256 := by
  simp only [pack_leaf, Option.bind_eq_bind, Option.bind_eq_some, Option.pure_def,
    Option.some.injEq] at h
  obtain ⟨ab, hab, cnt, hcnt, body, hbody, nb, hnb, hraw⟩ := h
  subst hraw
  intro b hb
  simp only [List.mem_append] at hb
  rcases hb with (((hb | hb) | hb) | hb) | hb
  · simp only [addrBytesOf] at hab
    exact fromHex_lt _ ab hab b hb
  · unfold packBE at hcnt
    split_ifs at hcnt with hc
    injection hcnt with hcnt
    rw [← hcnt] at hb
    exact int_to_bytes_lt _ _ b hb
  · exact packEntries_lt _ _ hbody b hb
  · unfold packBE at hnb
    split_ifs at hnb with hc
    injection hnb with hnb
    rw [← hnb] at hb
    exact int_to_bytes_lt _ _ b hb
  · exact hn b hb

theorem byteHex_flatten_length (L : List ℕ) :
    ((L.map byteHex).flatten).length = 2 * L.length := by
  induction L with
  | nil => rfl
  | cons b L ih =>
    simp only [List.map_cons, List.flatten_cons, List.length_append, ih, byteHex,
      List.length_cons, List.length_nil]
    omega

theorem unpack_addr_form {raw : List ℕ} {t : List Char × List ℕ × List ℤ × List ℕ}
    (h : unpack_leaf raw = some t) (hb : ∀ b ∈ raw, b < 256) :
    t.1.length = 42 ∧ t.1.take 2 = ['0', 'x'] ∧ ∀ c ∈ t.1.drop 2, isLowerHexChar c := by
  simp only [unpack_leaf, Option.bind_eq_bind, Option.bind_eq_some, Option.pure_def,
    Option.some.injEq] at h
  obtain ⟨cnt, hcnt, iv, hiv, nb, hnb, ht⟩ := h
  subst ht
  have hlen24 : 24 ≤ raw.length := by
    unfold readBE at hcnt
    split_ifs at hcnt with hc
    omega
  have ht20 : (raw.take 20).length = 20 := by
    rw [List.length_take]
    omega
  refine ⟨?_, rfl, ?_⟩
  · dsimp only
    simp only [List.length_cons, byteHex_flatten_length, ht20]
  · dsimp only
    intro c hc
    rcases List.mem_flatten.mp hc with ⟨l, hl, hcl⟩
    rcases List.mem_map.mp hl with ⟨b, hbm, rfl⟩
    have hb256 : b < 256 := hb b (List.mem_of_mem_take hbm)
    simp only [byteHex, List.mem_cons, List.not_mem_nil, or_false] at hcl
    rcases hcl with rfl | rfl
    · exact isLowerHexChar_hexChar (by omega)
    · exact isLowerHexChar_hexChar (by omega)

end AddressLemmas

/-- **C10**: `pack_leaf` normalizes the miner address and `unpack_leaf`
emits its canonical form.  (i) A leading `0x` is stripped: prefixed and
unprefixed spellings of the same address pack identically.  (ii) An
unprefixed hex address of at most 40 digits is accepted and left-padded
with `'0'` to exactly 20 bytes.  (iii) Whenever `unpack_leaf` succeeds on a
byte string, the returned address is a lowercase `0x`-prefixed string of
exactly 40 hex digits.  (iv) Consequently the address component
round-trips character-for-character only when the input address is already
such a canonical string. -/
theorem C10_address_normalization (a : List Char) (idx : List ℕ) (vals : List ℤ)
    (nonce : List ℕ) :
    (a.take 2 ≠ ['0', 'x'] →
        pack_leaf ('0' :: 'x' :: a) idx vals nonce = pack_leaf a idx vals nonce) ∧
    (a.take 2 ≠ ['0', 'x'] → a.length ≤ 40 → (∀ c ∈ a, ∃ v, hexVal c = some v) →
        ∃ bs, addrBytesOf a = some bs ∧ bs.length = 20) ∧
    (∀ (raw : List ℕ) (t : List Char × List ℕ × List ℤ × List ℕ),
        unpack_leaf raw = some t → (∀ b ∈ raw, b < 256) →
        t.1.length = 42 ∧ t.1.take 2 = ['0', 'x'] ∧ ∀ c ∈ t.1.drop 2, isLowerHexChar c) ∧
    (∀ (raw : List ℕ) (t : List Char × List ℕ × List ℤ × List ℕ),
        pack_leaf a idx vals nonce = some raw → unpack_leaf raw = some t →
        (∀ b ∈ nonce, b < 256) → t.1 = a →
        a.length = 42 ∧ a.take 2 = ['0', 'x'] ∧ ∀ c ∈ a.drop 2, isLowerHexChar c) := by
  refine ⟨?_, ?_, ?_, ?_⟩
  · intro hne
    have ha : addrBytesOf ('0' :: 'x' :: a) = addrBytesOf a := by
      simp only [addrBytesOf]
      rw [if_pos (show ('0' :: 'x' :: a).take 2 = ['0', 'x'] from rfl), if_neg hne]
      rfl
    simp only [pack_leaf, ha]
  · intro hne hlen hhex
    have hpadhex : ∀ c ∈ List.replicate (40 - a.length) '0' ++ a, ∃ v, hexVal c = some v := by
      intro c hc
      rcases List.mem_append.mp hc with hc | hc
      · have hc0 : c = '0' := List.eq_of_mem_replicate hc
        subst hc0
        exact ⟨0, by decide⟩
      · exact hhex c hc
    have hev : (List.replicate (40 - a.length) '0' ++ a).length % 2 = 0 := by
      simp only [List.length_append, List.length_replicate]
      omega
    obtain ⟨bs, hbs⟩ := fromHex_isSome (List.replicate (40 - a.length) '0' ++ a) hpadhex hev
    have hlb := fromHex_length (List.replicate (40 - a.length) '0' ++ a) bs hbs
    simp only [List.length_append, List.length_replicate] at hlb
    have haddr : addrBytesOf a = some bs := by
      simp only [addrBytesOf]
      rw [if_neg hne]
      exact hbs
    exact ⟨bs, haddr, by omega⟩
  · intro raw t hup hbytes
    exact unpack_addr_form hup hbytes
  · intro raw t hpk hup hnb ht1
    have hbytes := pack_leaf_bytes_lt a idx vals nonce raw hpk hnb
    have h3 := unpack_addr_form hup hbytes
    rw [ht1] at h3
    exact h3

theorem C10_address_normalization_witness :
    (pack_leaf ('0' :: 'x' :: List.replicate 40 'a') [] [] []
        = pack_leaf (List.replicate 40 'a') [] [] []) ∧
    (∃ bs, addrBytesOf (List.replicate 40 'a') = some bs ∧ bs.length = 20) ∧
    (('0' :: 'x' :: List.replicate 40 '0' : List Char).length = 42 ∧
      ('0' :: 'x' :: List.replicate 40 '0' : List Char).take 2 = ['0', 'x'] ∧
      ∀ c ∈ ('0' :: 'x' :: List.replicate 40 '0' : List Char).drop 2, isLowerHexChar c) :=
  ⟨(C10_address_normalization (List.replicate 40 'a') [] [] []).1 (by decide),
   (C10_address_normalization (List.replicate 40 'a') [] [] []).2.1 (by decide) (by decide)
     (fun c hc => by
       have hc0 : c = 'a' := List.eq_of_mem_replicate hc
       subst hc0
       exact ⟨10, by decide⟩),
   (C10_address_normalization (List.replicate 40 'a') [] [] []).2.2.1
     (List.replicate 26 0) ('0' :: 'x' :: List.replicate 40 '0', [], [], [])
     (by decide) (by decide)⟩
